import Mathlib

/-!
# Verification of the `lgr-capstone` embedded log-structured key-value store

Shallow embedding of `src/datastore/{database.rs, record.rs, error.rs}`.

Modelling conventions:
* Rust `String`s are modelled by their UTF-8 byte sequences (`List Nat`);
  string equality in Rust is byte equality, so this is faithful.  The UTF-8
  validity check performed by `bincode` on deserialization always succeeds on
  bytes produced by serializing a `String`, and no claim depends on rejecting
  invalid UTF-8, so the check is elided.
* The data file is a byte list together with an explicit cursor, matching the
  single `File` handle (`seek`/`read_exact`/`write_all`).
* `HashMap<String, u64>` is modelled as an association list whose keys are
  unique in every state the program can construct (`HashMap` keys are unique
  by construction); `idxInsert`/`idxRemove`/`idxLookup` mirror
  `insert`/`remove`/`get`.
* `bincode::serialize` on `Record { key, val }` (bincode 1.x fixed-int,
  little-endian) writes an 8-byte little-endian length followed by the raw
  bytes, for `key` then `val`; `bincode::deserialize` tolerates trailing
  bytes.  Machine integers are modelled as `Nat` with explicit `% 2 ^ 64`
  truncation in the byte encoder.
* Fallible I/O is `Except DbError`; the distinct error causes that the
  claims talk about are kept apart by the `DbError` constructors.
-/

/-- Errors of the engine, from `src/datastore/error.rs` (the `Box<dyn Error>`
result type is collapsed onto the causes that can actually occur). -/
inductive DbError where
  | ioError : DbError
  | corruptRecord : DbError
  | compactionKeyNotFound : List Nat → DbError
deriving DecidableEq, Repr

deriving instance DecidableEq for Except

/-- Little-endian byte encoding of `n` into `w` bytes (truncating, as
`usize::to_le_bytes` does for the value `n % 2^(8w)`). -/
def leBytes : Nat → Nat → List Nat
  | 0, _ => []
  | w + 1, n => n % 256 :: leBytes w (n / 256)

/-- `usize::to_le_bytes` / the 8-byte length field written before records. -/
def u64le (n : Nat) : List Nat := leBytes 8 n

/-- `u64::from_le_bytes`: decode a little-endian byte list to a number. -/
def leDecode : List Nat → Nat
  | [] => 0
  | b :: bs => b + 256 * leDecode bs

/-- A single key/value record, `src/datastore/record.rs`. -/
structure Record where
  key : List Nat
  val : List Nat
deriving DecidableEq, Repr

/-- `bincode::serialize(&record)`: 8-byte LE length of `key`, `key` bytes,
8-byte LE length of `val`, `val` bytes; no separators or padding. -/
def serializeRecord (r : Record) : List Nat :=
  u64le r.key.length ++ r.key ++ u64le r.val.length ++ r.val

/-- `bincode::deserialize::<Record>`: reads the two length-prefixed fields;
fails when a declared length exceeds the remaining bytes; trailing bytes are
tolerated (bincode 1.x `deserialize` behaviour). -/
def deserializeRecord (bs : List Nat) : Option Record :=
  if 8 ≤ bs.length then
    let klen := leDecode (bs.take 8)
    let rest := bs.drop 8
    if klen ≤ rest.length then
      let rest2 := rest.drop klen
      if 8 ≤ rest2.length then
        let vlen := leDecode (rest2.take 8)
        let rest3 := rest2.drop 8
        if vlen ≤ rest3.length then
          some ⟨rest.take klen, rest3.take vlen⟩
        else none
      else none
    else none
  else none

/-- The `usize` lengths involved in serializing `r` do not overflow 64 bits.
This always holds in Rust (lengths of in-memory byte buffers). -/
def GoodRec (r : Record) : Prop := 16 + r.key.length + r.val.length < 2 ^ 64

instance : DecidablePred GoodRec := fun r => by
  unfold GoodRec
  infer_instance

/-- In-memory offset index: association list model of `HashMap<String, u64>`. -/
abbrev Index := List (List Nat × Nat)

/-- `HashMap::get`. -/
def idxLookup : Index → List Nat → Option Nat
  | [], _ => none
  | (k', o) :: rest, k => if k' = k then some o else idxLookup rest k

/-- `HashMap::remove` (drops every binding of the key; at most one exists in
states built by the program). -/
def idxRemove : Index → List Nat → Index
  | [], _ => []
  | (k', o) :: rest, k =>
    if k' = k then idxRemove rest k else (k', o) :: idxRemove rest k

/-- `HashMap::insert` (replaces the previous binding of the key). -/
def idxInsert (idx : Index) (k : List Nat) (o : Nat) : Index :=
  (k, o) :: idxRemove idx k

/-- `EmbeddedDatabase`: file handle (bytes + cursor) and offset index.  The
path field carries no semantic content (the compaction temporary file is
modelled directly) and is omitted. -/
structure DB where
  file : List Nat
  cursor : Nat
  index : Index
deriving DecidableEq, Repr

/-- The 8-byte length prefix read at `off` (`u64::from_le_bytes` of the bytes
`read_exact` fills). -/
def entryLenAt (file : List Nat) (off : Nat) : Nat :=
  leDecode ((file.drop off).take 8)

/-- Reading a raw log entry at `off`: the 8 prefix bytes and the payload
bytes, available only when both `read_exact` calls can be satisfied. -/
def entryBytesAt (file : List Nat) (off : Nat) : Option (List Nat × List Nat) :=
  if off + 8 ≤ file.length ∧ off + 8 + entryLenAt file off ≤ file.length then
    some ((file.drop off).take 8, (file.drop (off + 8)).take (entryLenAt file off))
  else none

/-- Reading and decoding the log entry at `off`. -/
def entryAt (file : List Nat) (off : Nat) : Option Record :=
  match entryBytesAt file off with
  | some e => deserializeRecord e.2
  | none => none

/-- `EmbeddedDatabase::set` (the infallible in-memory effect; faults are
modelled by `setF` below): seek to end of file, write the 8-byte length of
the serialized record, write the record, insert the start offset. -/
def set (db : DB) (key val : List Nat) : DB :=
  let enc := serializeRecord ⟨key, val⟩
  { file := db.file ++ u64le enc.length ++ enc
    cursor := db.file.length + 8 + enc.length
    index := idxInsert db.index key db.file.length }

/-- `EmbeddedDatabase::delete`: append a tombstone (empty value) record and
remove the key from the index. -/
def delete (db : DB) (key : List Nat) : DB :=
  let enc := serializeRecord ⟨key, []⟩
  { file := db.file ++ u64le enc.length ++ enc
    cursor := db.file.length + 8 + enc.length
    index := idxRemove db.index key }

/-- `EmbeddedDatabase::set` with write faults made explicit: `w1`/`w2` say
whether the two `write_all` calls succeed.  A failing `write_all` is modelled
as writing nothing (the most favourable reading for the atomicity claim); the
returned pair is (error if any, resulting engine state). -/
def setF (db : DB) (key val : List Nat) (w1 w2 : Bool) : Option DbError × DB :=
  let enc := serializeRecord ⟨key, val⟩
  let off := db.file.length
  if w1 then
    let db1 : DB := { db with file := db.file ++ u64le enc.length, cursor := off + 8 }
    if w2 then
      (none, { file := db1.file ++ enc
               cursor := off + 8 + enc.length
               index := idxInsert db.index key off })
    else (some .ioError, db1)
  else (some .ioError, { db with cursor := off })

/-- `EmbeddedDatabase::delete` with write faults made explicit, as `setF`. -/
def deleteF (db : DB) (key : List Nat) (w1 w2 : Bool) : Option DbError × DB :=
  let enc := serializeRecord ⟨key, []⟩
  let off := db.file.length
  if w1 then
    let db1 : DB := { db with file := db.file ++ u64le enc.length, cursor := off + 8 }
    if w2 then
      (none, { file := db1.file ++ enc
               cursor := off + 8 + enc.length
               index := idxRemove db.index key })
    else (some .ioError, db1)
  else (some .ioError, { db with cursor := off })

/-- `EmbeddedDatabase::get`: index lookup (returning immediately when the key
is absent, with no file access), then seek, read the 8-byte length, read the
payload, decode, return the value.  (Named `dbGet` because plain `get`
collides with the `MonadState.get` export.) -/
def dbGet (db : DB) (key : List Nat) : Except DbError (Option (List Nat)) × DB :=
  match idxLookup db.index key with
  | none => (.ok none, db)
  | some off =>
    if off + 8 ≤ db.file.length then
      if off + 8 + entryLenAt db.file off ≤ db.file.length then
        match deserializeRecord ((db.file.drop (off + 8)).take (entryLenAt db.file off)) with
        | some r =>
          (.ok (some r.val), { db with cursor := off + 8 + entryLenAt db.file off })
        | none =>
          (.error .corruptRecord, { db with cursor := off + 8 + entryLenAt db.file off })
      else (.error .ioError, { db with cursor := off + 8 })
    else (.error .ioError, { db with cursor := off })

/-- The replay loop of `EmbeddedDatabase::new`: from `position`, read the
8-byte length (break silently when fewer than 8 bytes remain), read the
payload (an error here propagates), decode (an error here propagates),
remove the key on a tombstone and insert `key ↦ position` otherwise, advance
by `8 + len`.  `fuel` bounds the iteration count; `new` supplies
`file.length + 1`, which the replay lemmas show is never exhausted. -/
def replayFrom : Nat → List Nat → Nat → Index → Except DbError Index
  | 0, _, _, _ => .error .ioError
  | fuel + 1, file, position, idx =>
    if position < file.length then
      if position + 8 ≤ file.length then
        if position + 8 + entryLenAt file position ≤ file.length then
          match deserializeRecord
              ((file.drop (position + 8)).take (entryLenAt file position)) with
          | some r =>
            replayFrom fuel file (position + 8 + entryLenAt file position)
              (if r.val = [] then idxRemove idx r.key else idxInsert idx r.key position)
          | none => .error .corruptRecord
        else .error .ioError
      else .ok idx
    else .ok idx

/-- `EmbeddedDatabase::new` on a file with the given contents (the file is
created empty when absent, so opening a fresh path is `openDB []`). -/
def openDB (file : List Nat) : Except DbError DB :=
  match replayFrom (file.length + 1) file 0 [] with
  | .ok idx => .ok { file := file, cursor := 0, index := idx }
  | .error e => .error e

/-- The per-key loop of `EmbeddedDatabase::close`: for each key, look it up
in the old index (`CompactionKeyNotFound` when absent), read the raw entry at
the recorded offset from the old file, append it verbatim to the new file,
record the new offset. -/
def compactLoop (oldFile : List Nat) (oldIdx : Index) :
    List (List Nat) → List Nat → Index → Nat → Except DbError (List Nat × Index)
  | [], nf, ni, _ => .ok (nf, ni)
  | k :: ks, nf, ni, npos =>
    match idxLookup oldIdx k with
    | none => .error (.compactionKeyNotFound k)
    | some pos =>
      if pos + 8 ≤ oldFile.length then
        if pos + 8 + entryLenAt oldFile pos ≤ oldFile.length then
          compactLoop oldFile oldIdx ks
            (nf ++ (oldFile.drop pos).take 8
              ++ (oldFile.drop (pos + 8)).take (entryLenAt oldFile pos))
            (idxInsert ni k npos) (npos + 8 + entryLenAt oldFile pos)
        else .error .ioError
      else .error .ioError

/-- `EmbeddedDatabase::close`: rewrite one entry per indexed key into a fresh
file, atomically replace the old file, reopen the handle (cursor 0), install
the fresh index.  (The temporary `.compact` path is modelled as the fresh
byte list; no stale file is assumed to pre-exist at it.) -/
def close (db : DB) : Except DbError DB :=
  match compactLoop db.file db.index (db.index.map Prod.fst) [] [] 0 with
  | .ok (nf, ni) => .ok { file := nf, cursor := 0, index := ni }
  | .error e => .error e

/-- An indexed binding `(k, off)` is live: the entry at `off` reads and
decodes to a record whose key is `k` and whose value is non-empty. -/
def entryLiveB (file : List Nat) (k : List Nat) (off : Nat) : Bool :=
  match entryAt file off with
  | some r => decide (r.key = k) && decide (r.val ≠ [])
  | none => false

/-- The offset-index invariant of §3 of the spec, together with key
uniqueness of the association list (structural for `HashMap`): every binding
points at a live entry for its own key. -/
def WFdb (db : DB) : Prop :=
  (db.index.map Prod.fst).Nodup ∧ ∀ p ∈ db.index, entryLiveB db.file p.1 p.2 = true

instance : DecidablePred WFdb := fun db => by
  unfold WFdb; infer_instance

/-! ## Byte-codec lemmas -/

theorem length_leBytes : ∀ (w n : Nat), (leBytes w n).length = w
  | 0, _ => rfl
  | w + 1, n => by simp [leBytes, length_leBytes w]

theorem length_u64le (n : Nat) : (u64le n).length = 8 := length_leBytes 8 n

theorem leDecode_leBytes : ∀ (w n : Nat), leDecode (leBytes w n) = n % 256 ^ w
  | 0, n => by simp [leBytes, leDecode, Nat.mod_one]
  | w + 1, n => by
    show n % 256 + 256 * leDecode (leBytes w (n / 256)) = n % 256 ^ (w + 1)
    rw [leDecode_leBytes w (n / 256), pow_succ']
    have h1 : n % (256 * 256 ^ w) = 256 * (n % (256 * 256 ^ w) / 256)
        + n % (256 * 256 ^ w) % 256 := (Nat.div_add_mod _ 256).symm
    rw [Nat.mod_mul_right_div_self, Nat.mod_mod_of_dvd n (Dvd.intro _ rfl)] at h1
    omega

theorem leDecode_u64le {n : Nat} (h : n < 2 ^ 64) : leDecode (u64le n) = n := by
  have h2 : (2 : Nat) ^ 64 = 256 ^ 8 := by norm_num
  rw [u64le, leDecode_leBytes, Nat.mod_eq_of_lt (h2 ▸ h)]

theorem length_serializeRecord (r : Record) :
    (serializeRecord r).length = 16 + r.key.length + r.val.length := by
  simp [serializeRecord, length_u64le]; omega

/-! ## List slicing helper lemmas -/

theorem take_all_append (a b : List Nat) (n : Nat) (h : n = a.length) :
    (a ++ b).take n = a := by
  subst h; exact List.take_left a b

theorem drop_all_append (a b : List Nat) (n : Nat) (h : n = a.length) :
    (a ++ b).drop n = b := by
  subst h; exact List.drop_left a b

theorem drop_append_le (a b : List Nat) {n : Nat} (h : n ≤ a.length) :
    (a ++ b).drop n = a.drop n ++ b :=
  List.drop_append_of_le_length h

theorem take_append_le (a b : List Nat) {n : Nat} (h : n ≤ a.length) :
    (a ++ b).take n = a.take n :=
  List.take_append_of_le_length h

/-- Bytes taken inside the left part of an append are unaffected by growth. -/
theorem slice_append (a b : List Nat) {p n : Nat} (h : p + n ≤ a.length) :
    ((a ++ b).drop p).take n = (a.drop p).take n := by
  rw [drop_append_le a b (le_trans (Nat.le_add_right p n) h)]
  exact take_append_le _ _ (by simp; omega)

/-! ## Record serialization roundtrip -/

theorem goodRec_key {r : Record} (h : GoodRec r) : r.key.length < 2 ^ 64 := by
  unfold GoodRec at h; omega

theorem goodRec_val {r : Record} (h : GoodRec r) : r.val.length < 2 ^ 64 := by
  unfold GoodRec at h; omega

theorem deserialize_serialize {r : Record} (h : GoodRec r) :
    deserializeRecord (serializeRecord r) = some r := by
  obtain ⟨key, val⟩ := r
  have hk : key.length < 2 ^ 64 := goodRec_key h
  have hv : val.length < 2 ^ 64 := goodRec_val h
  have e1 : (serializeRecord ⟨key, val⟩).take 8 = u64le key.length := by
    rw [serializeRecord, List.append_assoc, List.append_assoc]
    exact take_all_append _ _ 8 (length_u64le _).symm
  have e2 : (serializeRecord ⟨key, val⟩).drop 8 = key ++ u64le val.length ++ val := by
    rw [serializeRecord, List.append_assoc, List.append_assoc,
      drop_all_append _ _ 8 (length_u64le _).symm, List.append_assoc]
  have hlen : 8 ≤ (serializeRecord ⟨key, val⟩).length := by
    rw [length_serializeRecord]; omega
  rw [deserializeRecord, if_pos hlen, e1, e2, leDecode_u64le hk]
  have e3 : (key ++ u64le val.length ++ val).take key.length = key := by
    rw [List.append_assoc]; exact take_all_append _ _ _ rfl
  have e4 : (key ++ u64le val.length ++ val).drop key.length = u64le val.length ++ val := by
    rw [List.append_assoc]; exact drop_all_append _ _ _ rfl
  have h5 : key.length ≤ (key ++ u64le val.length ++ val).length := by
    simp [List.length_append]
  rw [if_pos h5, e4]
  have h6 : 8 ≤ (u64le val.length ++ val).length := by
    simp [List.length_append, length_u64le]
  rw [if_pos h6, take_all_append _ _ 8 (length_u64le _).symm,
    drop_all_append _ _ 8 (length_u64le _).symm, leDecode_u64le hv,
    if_pos (le_refl val.length), e3, List.take_length]

/-! ## Index (association-list HashMap) lemmas -/

theorem idxLookup_remove_self (idx : Index) (k : List Nat) :
    idxLookup (idxRemove idx k) k = none := by
  induction idx with
  | nil => rfl
  | cons p rest ih =>
    obtain ⟨pk, po⟩ := p
    by_cases hp : pk = k
    · simpa [idxRemove, hp] using ih
    · simp [idxRemove, hp, idxLookup, ih]

theorem idxLookup_remove_ne (idx : Index) {k k' : List Nat} (h : k' ≠ k) :
    idxLookup (idxRemove idx k) k' = idxLookup idx k' := by
  induction idx with
  | nil => rfl
  | cons p rest ih =>
    obtain ⟨pk, po⟩ := p
    simp only [idxRemove, idxLookup]
    by_cases hp : pk = k
    · rw [if_pos hp, ih]
      have hne : ¬pk = k' := by rw [hp]; exact fun e => h e.symm
      simp only [idxLookup, if_neg hne]
    · rw [if_neg hp]
      simp only [idxLookup]
      by_cases hpk : pk = k'
      · rw [if_pos hpk, if_pos hpk]
      · rw [if_neg hpk, if_neg hpk, ih]

theorem idxLookup_insert_self (idx : Index) (k : List Nat) (o : Nat) :
    idxLookup (idxInsert idx k o) k = some o := by
  simp [idxInsert, idxLookup]

theorem idxLookup_insert_ne (idx : Index) {k k' : List Nat} (o : Nat) (h : k' ≠ k) :
    idxLookup (idxInsert idx k o) k' = idxLookup idx k' := by
  simp only [idxInsert, idxLookup]
  rw [if_neg (fun e => h e.symm)]
  exact idxLookup_remove_ne idx h

theorem mem_idxRemove {idx : Index} {k : List Nat} {p : List Nat × Nat}
    (h : p ∈ idxRemove idx k) : p ∈ idx ∧ p.1 ≠ k := by
  induction idx with
  | nil => cases h
  | cons q rest ih =>
    obtain ⟨qk, qo⟩ := q
    by_cases hq : qk = k
    · simp only [idxRemove, if_pos hq] at h
      exact ⟨List.mem_cons_of_mem _ (ih h).1, (ih h).2⟩
    · simp only [idxRemove, if_neg hq, List.mem_cons] at h
      rcases h with h | h
      · refine ⟨by simp [h], ?_⟩
        rw [h]
        exact hq
      · exact ⟨List.mem_cons_of_mem _ (ih h).1, (ih h).2⟩

theorem mem_idxInsert {idx : Index} {k : List Nat} {o : Nat} {p : List Nat × Nat}
    (h : p ∈ idxInsert idx k o) : p = (k, o) ∨ (p ∈ idx ∧ p.1 ≠ k) := by
  simp only [idxInsert, List.mem_cons] at h
  rcases h with h | h
  · exact Or.inl h
  · exact Or.inr (mem_idxRemove h)

theorem not_mem_fst_idxRemove (idx : Index) (k : List Nat) :
    k ∉ (idxRemove idx k).map Prod.fst := by
  intro h
  rcases List.mem_map.mp h with ⟨p, hp, hfst⟩
  exact (mem_idxRemove hp).2 hfst

theorem nodup_fst_idxRemove {idx : Index} (h : (idx.map Prod.fst).Nodup) (k : List Nat) :
    ((idxRemove idx k).map Prod.fst).Nodup := by
  induction idx with
  | nil => simp [idxRemove]
  | cons p rest ih =>
    obtain ⟨pk, po⟩ := p
    simp only [List.map_cons, List.nodup_cons] at h
    by_cases hp : pk = k
    · simp only [idxRemove, if_pos hp]
      exact ih h.2
    · simp only [idxRemove, if_neg hp, List.map_cons, List.nodup_cons]
      refine ⟨fun hmem => ?_, ih h.2⟩
      rcases List.mem_map.mp hmem with ⟨q, hq, hfst⟩
      exact h.1 (List.mem_map.mpr ⟨q, (mem_idxRemove hq).1, hfst⟩)

theorem nodup_fst_idxInsert {idx : Index} (h : (idx.map Prod.fst).Nodup)
    (k : List Nat) (o : Nat) : ((idxInsert idx k o).map Prod.fst).Nodup := by
  simp only [idxInsert, List.map_cons, List.nodup_cons]
  exact ⟨not_mem_fst_idxRemove idx k, nodup_fst_idxRemove h k⟩

theorem idxLookup_mem {idx : Index} {k : List Nat} {o : Nat}
    (h : idxLookup idx k = some o) : (k, o) ∈ idx := by
  induction idx with
  | nil => cases h
  | cons p rest ih =>
    obtain ⟨pk, po⟩ := p
    simp only [idxLookup] at h
    by_cases hp : pk = k
    · rw [if_pos hp] at h
      injection h with h2
      subst hp; subst h2
      exact List.mem_cons_self _ _
    · rw [if_neg hp] at h
      exact List.mem_cons_of_mem _ (ih h)

theorem mem_fst_lookup_isSome {idx : Index} {k : List Nat}
    (h : k ∈ idx.map Prod.fst) : ∃ o, idxLookup idx k = some o := by
  induction idx with
  | nil => cases h
  | cons p rest ih =>
    obtain ⟨pk, po⟩ := p
    by_cases hp : pk = k
    · exact ⟨po, by simp [idxLookup, hp]⟩
    · simp only [List.map_cons, List.mem_cons] at h
      rcases h with h | h
      · exact absurd h.symm hp
      · simpa [idxLookup, hp] using ih h

theorem lookup_of_mem_nodup {idx : Index} {p : List Nat × Nat}
    (hnd : (idx.map Prod.fst).Nodup) (h : p ∈ idx) : idxLookup idx p.1 = some p.2 := by
  induction idx with
  | nil => cases h
  | cons q rest ih =>
    obtain ⟨qk, qo⟩ := q
    simp only [List.map_cons, List.nodup_cons] at hnd
    rcases List.mem_cons.mp h with h | h
    · subst h; simp [idxLookup]
    · have hq : ¬qk = p.1 := by
        intro he
        exact hnd.1 (he ▸ List.mem_map.mpr ⟨p, h, rfl⟩)
      simp only [idxLookup, if_neg hq]
      exact ih hnd.2 h

/-! ## Entry-reading lemmas -/

theorem entryBytesAt_some_elim {file : List Nat} {off : Nat} {e : List Nat × List Nat}
    (h : entryBytesAt file off = some e) :
    off + 8 ≤ file.length ∧ off + 8 + entryLenAt file off ≤ file.length ∧
      e.1 = (file.drop off).take 8 ∧
      e.2 = (file.drop (off + 8)).take (entryLenAt file off) := by
  unfold entryBytesAt at h
  by_cases h1 : off + 8 ≤ file.length ∧ off + 8 + entryLenAt file off ≤ file.length
  · rw [if_pos h1] at h
    injection h with h2
    exact ⟨h1.1, h1.2, by rw [← h2], by rw [← h2]⟩
  · rw [if_neg h1] at h
    cases h

theorem entryBytesAt_some_wf {file : List Nat} {off : Nat} {e : List Nat × List Nat}
    (h : entryBytesAt file off = some e) :
    e.1.length = 8 ∧ e.2.length = leDecode e.1 := by
  obtain ⟨h1, h2, he1, he2⟩ := entryBytesAt_some_elim h
  have l1 : e.1.length = 8 := by
    rw [he1, List.length_take, List.length_drop]
    omega
  refine ⟨l1, ?_⟩
  have : leDecode e.1 = entryLenAt file off := by rw [he1]; rfl
  rw [this, he2, List.length_take, List.length_drop]
  omega

theorem entryLenAt_append {file : List Nat} (ext : List Nat) {off : Nat}
    (h : off + 8 ≤ file.length) :
    entryLenAt (file ++ ext) off = entryLenAt file off := by
  unfold entryLenAt
  rw [slice_append file ext h]

theorem entryBytesAt_append {file : List Nat} (ext : List Nat) {off : Nat}
    {e : List Nat × List Nat} (h : entryBytesAt file off = some e) :
    entryBytesAt (file ++ ext) off = some e := by
  obtain ⟨h1, h2, he1, he2⟩ := entryBytesAt_some_elim h
  have hlen : entryLenAt (file ++ ext) off = entryLenAt file off :=
    entryLenAt_append ext h1
  have hfl : file.length ≤ (file ++ ext).length := by simp
  unfold entryBytesAt
  obtain ⟨e1, e2⟩ := e
  simp only at he1 he2
  rw [hlen, if_pos ⟨le_trans h1 hfl, le_trans h2 hfl⟩,
    slice_append file ext h1, slice_append file ext h2, ← he1, ← he2]

theorem entryLenAt_here (f lb rb : List Nat) (hlb : lb.length = 8) :
    entryLenAt (f ++ lb ++ rb) f.length = leDecode lb := by
  unfold entryLenAt
  rw [List.append_assoc, drop_all_append f _ _ rfl, take_all_append lb rb 8 hlb.symm]

theorem entryBytesAt_here (f lb rb : List Nat) (hlb : lb.length = 8)
    (hrb : rb.length = leDecode lb) :
    entryBytesAt (f ++ lb ++ rb) f.length = some (lb, rb) := by
  have hlen : entryLenAt (f ++ lb ++ rb) f.length = leDecode lb :=
    entryLenAt_here f lb rb hlb
  have htot : (f ++ lb ++ rb).length = f.length + 8 + rb.length := by
    simp [List.length_append, hlb]
    omega
  have e1 : ((f ++ lb ++ rb).drop f.length).take 8 = lb := by
    rw [List.append_assoc, drop_all_append f _ _ rfl, take_all_append lb rb 8 hlb.symm]
  have e2 : ((f ++ lb ++ rb).drop (f.length + 8)).take (leDecode lb) = rb := by
    rw [drop_all_append (f ++ lb) rb _ (by simp [List.length_append, hlb]), ← hrb,
      List.take_length]
  unfold entryBytesAt
  rw [hlen, if_pos ⟨by omega, by omega⟩, e1, e2]

theorem entryAt_eq_some_iff {file : List Nat} {off : Nat} {r : Record} :
    entryAt file off = some r ↔
      ∃ e, entryBytesAt file off = some e ∧ deserializeRecord e.2 = some r := by
  unfold entryAt
  cases hB : entryBytesAt file off with
  | none => simp
  | some e => simp

theorem entryAt_append {file : List Nat} (ext : List Nat) {off : Nat} {r : Record}
    (h : entryAt file off = some r) : entryAt (file ++ ext) off = some r := by
  obtain ⟨e, hB, hD⟩ := entryAt_eq_some_iff.mp h
  exact entryAt_eq_some_iff.mpr ⟨e, entryBytesAt_append ext hB, hD⟩

/-- The bytes `set` appends form a readable, decodable entry at the old end
of file. -/
theorem entryAt_here {f : List Nat} {r : Record} (h : GoodRec r) :
    entryAt (f ++ u64le (serializeRecord r).length ++ serializeRecord r) f.length
      = some r := by
  have henc : (serializeRecord r).length < 2 ^ 64 := by
    rw [length_serializeRecord]
    exact h
  refine entryAt_eq_some_iff.mpr ⟨(u64le (serializeRecord r).length, serializeRecord r),
    entryBytesAt_here f _ _ (length_u64le _) (leDecode_u64le henc).symm, ?_⟩
  exact deserialize_serialize h

theorem entryLiveB_iff {file k : List Nat} {off : Nat} :
    entryLiveB file k off = true ↔
      ∃ r, entryAt file off = some r ∧ r.key = k ∧ r.val ≠ [] := by
  unfold entryLiveB
  cases hE : entryAt file off with
  | none => simp
  | some r => simp

theorem entryLiveB_append {file k : List Nat} (ext : List Nat) {off : Nat}
    (h : entryLiveB file k off = true) : entryLiveB (file ++ ext) k off = true := by
  obtain ⟨r, hE, hk, hv⟩ := entryLiveB_iff.mp h
  exact entryLiveB_iff.mpr ⟨r, entryAt_append ext hE, hk, hv⟩

/-! ## `get` characterization -/

theorem get_absent {db : DB} {k : List Nat} (h : idxLookup db.index k = none) :
    dbGet db k = (.ok none, db) := by
  unfold dbGet
  rw [h]

theorem get_found {db : DB} {k : List Nat} {off : Nat} {r : Record}
    (hL : idxLookup db.index k = some off) (hE : entryAt db.file off = some r) :
    dbGet db k = (.ok (some r.val), { db with cursor := off + 8 + entryLenAt db.file off }) := by
  obtain ⟨e, hB, hD⟩ := entryAt_eq_some_iff.mp hE
  obtain ⟨h1, h2, he1, he2⟩ := entryBytesAt_some_elim hB
  rw [he2] at hD
  unfold dbGet
  rw [hL]
  dsimp only
  rw [if_pos h1, if_pos h2, hD]

theorem get_frame (db : DB) (k : List Nat) :
    (dbGet db k).2.file = db.file ∧ (dbGet db k).2.index = db.index := by
  unfold dbGet
  cases hL : idxLookup db.index k with
  | none => exact ⟨rfl, rfl⟩
  | some off =>
    dsimp only
    by_cases h1 : off + 8 ≤ db.file.length
    · rw [if_pos h1]
      by_cases h2 : off + 8 + entryLenAt db.file off ≤ db.file.length
      · rw [if_pos h2]
        cases hD : deserializeRecord ((db.file.drop (off + 8)).take (entryLenAt db.file off)) with
        | none => exact ⟨rfl, rfl⟩
        | some r => exact ⟨rfl, rfl⟩
      · rw [if_neg h2]
        exact ⟨rfl, rfl⟩
    · rw [if_neg h1]
      exact ⟨rfl, rfl⟩

theorem set_file (db : DB) (key val : List Nat) :
    (set db key val).file =
      db.file ++ u64le (serializeRecord ⟨key, val⟩).length ++ serializeRecord ⟨key, val⟩ :=
  rfl

theorem set_index (db : DB) (key val : List Nat) :
    (set db key val).index = idxInsert db.index key db.file.length := rfl

theorem delete_file (db : DB) (key : List Nat) :
    (delete db key).file =
      db.file ++ u64le (serializeRecord ⟨key, []⟩).length ++ serializeRecord ⟨key, []⟩ :=
  rfl

theorem delete_index (db : DB) (key : List Nat) :
    (delete db key).index = idxRemove db.index key := rfl

/-- After `set db key val`, `get key` finds the freshly appended record. -/
theorem get_set_self (db : DB) (key val : List Nat) (hgood : GoodRec ⟨key, val⟩) :
    (dbGet (set db key val) key).1 = .ok (some val) := by
  have hL : idxLookup (set db key val).index key = some db.file.length := by
    rw [set_index]
    exact idxLookup_insert_self _ _ _
  have hE : entryAt (set db key val).file db.file.length = some ⟨key, val⟩ := by
    rw [set_file]
    exact entryAt_here hgood
  rw [get_found hL hE]

theorem entryBytesAt_none_iff {file : List Nat} {off : Nat} :
    entryBytesAt file off = none ↔
      ¬(off + 8 ≤ file.length ∧ off + 8 + entryLenAt file off ≤ file.length) := by
  unfold entryBytesAt
  by_cases h : off + 8 ≤ file.length ∧ off + 8 + entryLenAt file off ≤ file.length
  · rw [if_pos h]
    simp [h]
  · rw [if_neg h]
    simp [h]

/-! ## `compactLoop` error analysis -/

theorem compactLoop_err (oldFile : List Nat) (oldIdx : Index) :
    ∀ (ks : List (List Nat)) (nf : List Nat) (ni : Index) (npos : Nat),
      (∀ k ∈ ks, ∃ o, idxLookup oldIdx k = some o) →
      (∃ k ∈ ks, ∃ o, idxLookup oldIdx k = some o ∧ entryBytesAt oldFile o = none) →
      compactLoop oldFile oldIdx ks nf ni npos = .error DbError.ioError := by
  intro ks
  induction ks with
  | nil =>
    rintro _ _ _ _ ⟨k, hk, _⟩
    cases hk
  | cons k ks ih =>
    rintro nf ni npos hall ⟨k', hk', o', ho', hbad⟩
    obtain ⟨o, ho⟩ := hall k (List.mem_cons_self _ _)
    simp only [compactLoop]
    rw [ho]
    dsimp only
    by_cases h1 : o + 8 ≤ oldFile.length
    · rw [if_pos h1]
      by_cases h2 : o + 8 + entryLenAt oldFile o ≤ oldFile.length
      · rw [if_pos h2]
        rcases List.mem_cons.mp hk' with he | htail
        · subst he
          rw [ho] at ho'
          injection ho' with he2
          subst he2
          exact absurd hbad (by rw [entryBytesAt_none_iff]; exact fun hc => hc ⟨h1, h2⟩)
        · exact ih _ _ _ (fun q hq => hall q (List.mem_cons_of_mem _ hq))
            ⟨k', htail, o', ho', hbad⟩
      · rw [if_neg h2]
    · rw [if_neg h1]

theorem compactLoop_ne_keyNotFound (oldFile : List Nat) (oldIdx : Index) :
    ∀ (ks : List (List Nat)) (nf : List Nat) (ni : Index) (npos : Nat) (k : List Nat),
      (∀ q ∈ ks, ∃ o, idxLookup oldIdx q = some o) →
      compactLoop oldFile oldIdx ks nf ni npos ≠ .error (.compactionKeyNotFound k) := by
  intro ks
  induction ks with
  | nil =>
    intro _ _ _ _ _ h
    cases h
  | cons q ks ih =>
    intro nf ni npos k hall
    obtain ⟨o, ho⟩ := hall q (List.mem_cons_self _ _)
    simp only [compactLoop]
    rw [ho]
    dsimp only
    by_cases h1 : o + 8 ≤ oldFile.length
    · rw [if_pos h1]
      by_cases h2 : o + 8 + entryLenAt oldFile o ≤ oldFile.length
      · rw [if_pos h2]
        exact ih _ _ _ _ (fun p hp => hall p (List.mem_cons_of_mem _ hp))
      · rw [if_neg h2]
        intro h
        cases h
    · rw [if_neg h1]
      intro h
      cases h

/-! ## Claims C3, C7, C10, C6, C5 -/

/-- C3: Round trip — for every key and every non-empty value `val`,
`set(key, val)` followed by `get(key)` on the same engine (no intervening
mutation of that key) returns `Some(val)`. -/
theorem set_get_roundtrip (db : DB) (key val : List Nat) (_hval : val ≠ [])
    (hgood : GoodRec ⟨key, val⟩) :
    (dbGet (set db key val) key).1 = .ok (some val) :=
  get_set_self db key val hgood

theorem set_get_roundtrip_witness :
    [2] ≠ ([] : List Nat) ∧ GoodRec ⟨[1], [2]⟩ ∧
      (dbGet (set ⟨[], 0, []⟩ [1] [2]) [1]).1 = .ok (some [2]) :=
  ⟨by decide, by decide, set_get_roundtrip ⟨[], 0, []⟩ [1] [2] (by decide) (by decide)⟩

/-- C7: On-disk format — the bytes `set(key, val)` appends are exactly an
8-byte little-endian length equal to the payload size, then the payload:
8-byte LE length of `key`, the raw bytes of `key`, 8-byte LE length of
`val`, the raw bytes of `val`, in that order with no separators or
padding. -/
theorem set_on_disk_format (db : DB) (key val : List Nat)
    (h : GoodRec ⟨key, val⟩) :
    (set db key val).file
        = db.file ++ u64le (16 + key.length + val.length)
          ++ (u64le key.length ++ key ++ u64le val.length ++ val) ∧
      leDecode (u64le (16 + key.length + val.length))
        = (u64le key.length ++ key ++ u64le val.length ++ val).length := by
  have h' : 16 + key.length + val.length < 2 ^ 64 := h
  constructor
  · rw [set_file, length_serializeRecord]
    rfl
  · rw [leDecode_u64le h']
    simp [List.length_append, length_u64le]
    omega

theorem set_on_disk_format_witness :
    (set ⟨[], 0, []⟩ [1] [2]).file
        = [] ++ u64le (16 + 1 + 1) ++ (u64le 1 ++ [1] ++ u64le 1 ++ [2]) ∧
      leDecode (u64le (16 + 1 + 1)) = (u64le 1 ++ [1] ++ u64le 1 ++ [2]).length :=
  set_on_disk_format ⟨[], 0, []⟩ [1] [2] (by decide)

/-- C10: `get` is read-only on the engine state — the index and the file
bytes are unchanged by any `get` (only the cursor may move), and a `get` on
an absent key leaves the state entirely unchanged (it performs no file
access at all). -/
theorem get_readonly (db : DB) (k : List Nat) :
    (dbGet db k).2.file = db.file ∧ (dbGet db k).2.index = db.index ∧
      (idxLookup db.index k = none → dbGet db k = (.ok none, db)) :=
  ⟨(get_frame db k).1, (get_frame db k).2, fun h => get_absent h⟩

theorem get_readonly_witness :
    idxLookup (DB.mk [3] 7 [([1], 0)]).index [5] = none ∧
      dbGet ⟨[3], 7, [([1], 0)]⟩ [5] = (.ok none, ⟨[3], 7, [([1], 0)]⟩) :=
  ⟨by decide, (get_readonly ⟨[3], 7, [([1], 0)]⟩ [5]).2.2 (by decide)⟩

/-- C6 counterexample: with the first `write_all` (the 8-byte length prefix)
succeeding and the second (the payload) failing, `set` returns an error and
leaves the index unchanged, but the durable log HAS changed: it retains a
partially written entry (the dangling length prefix).  This contradicts the
claim that a failing mutation leaves the durable log file unchanged. -/
theorem mutation_atomicity_counterexample :
    (setF ⟨[], 0, []⟩ [1] [2] true false).1 = some DbError.ioError ∧
      (setF ⟨[], 0, []⟩ [1] [2] true false).2.index = ([] : Index) ∧
      (setF ⟨[], 0, []⟩ [1] [2] true false).2.file ≠ ([] : List Nat) := by
  exact ⟨by decide, by decide, by decide⟩

/-- C6 amended: for every `set` or `delete`, either the log append and the
index update both complete (the fault-free outcome), or the operation
returns an error and leaves the in-memory index unchanged — but the durable
log may retain a partially written entry: on error the file equals the old
file extended by some leading part of the new entry's bytes. -/
theorem mutation_atomicity_amended :
    (∀ (db : DB) (key val : List Nat) (w1 w2 : Bool),
      match setF db key val w1 w2 with
      | (none, db') => db' = set db key val
      | (some _, db') =>
          db'.index = db.index ∧
          ∃ t1 t2,
            u64le (serializeRecord ⟨key, val⟩).length ++ serializeRecord ⟨key, val⟩
              = t1 ++ t2 ∧ db'.file = db.file ++ t1) ∧
    (∀ (db : DB) (key : List Nat) (w1 w2 : Bool),
      match deleteF db key w1 w2 with
      | (none, db') => db' = delete db key
      | (some _, db') =>
          db'.index = db.index ∧
          ∃ t1 t2,
            u64le (serializeRecord ⟨key, []⟩).length ++ serializeRecord ⟨key, []⟩
              = t1 ++ t2 ∧ db'.file = db.file ++ t1) := by
  constructor
  · intro db key val w1 w2
    cases w1 with
    | false =>
      exact ⟨rfl, [],
        u64le (serializeRecord ⟨key, val⟩).length ++ serializeRecord ⟨key, val⟩,
        by simp, by simp⟩
    | true =>
      cases w2 with
      | false =>
        exact ⟨rfl, u64le (serializeRecord ⟨key, val⟩).length,
          serializeRecord ⟨key, val⟩, rfl, rfl⟩
      | true => rfl
  · intro db key w1 w2
    cases w1 with
    | false =>
      exact ⟨rfl, [],
        u64le (serializeRecord ⟨key, []⟩).length ++ serializeRecord ⟨key, []⟩,
        by simp, by simp⟩
    | true =>
      cases w2 with
      | false =>
        exact ⟨rfl, u64le (serializeRecord ⟨key, []⟩).length,
          serializeRecord ⟨key, []⟩, rfl, rfl⟩
      | true => rfl

theorem mutation_atomicity_amended_witness :
    (setF ⟨[], 0, []⟩ [1] [2] true true).2 = set ⟨[], 0, []⟩ [1] [2] ∧
      (deleteF ⟨[], 0, []⟩ [1] true true).2 = delete ⟨[], 0, []⟩ [1] :=
  ⟨mutation_atomicity_amended.1 ⟨[], 0, []⟩ [1] [2] true true,
    mutation_atomicity_amended.2 ⟨[], 0, []⟩ [1] true true⟩

/-- C5 counterexample: in the state with key `[97]` recorded at offset 100
and an empty file, the key cannot be located (read) at its recorded offset,
yet `close` fails with an I/O error — not with `CompactionKeyNotFound [97]`
as the claim asserts. -/
theorem compaction_missing_entry_counterexample :
    idxLookup (DB.mk [] 0 [([97], 100)]).index [97] = some 100 ∧
      entryBytesAt (DB.mk [] 0 [([97], 100)]).file 100 = none ∧
      close ⟨[], 0, [([97], 100)]⟩ = .error DbError.ioError ∧
      close ⟨[], 0, [([97], 100)]⟩ ≠ .error (DbError.compactionKeyNotFound [97]) :=
  ⟨by decide, by decide, by decide, by decide⟩

/-- C5 amended: when some key present in the index cannot be read at its
recorded offset, `close()` fails with an I/O error (it never silently skips
the key); the `CompactionKeyNotFound` error is reserved for a key that is
missing from the index during the rewrite loop, which cannot happen because
the loop iterates the index's own keys — `close` never returns it. -/
theorem compaction_missing_entry_amended :
    (∀ db : DB,
      (∃ k off, idxLookup db.index k = some off ∧ entryBytesAt db.file off = none) →
      close db = .error DbError.ioError) ∧
    (∀ (db : DB) (k : List Nat), close db ≠ .error (DbError.compactionKeyNotFound k)) := by
  constructor
  · rintro db ⟨k, off, hL, hbad⟩
    unfold close
    rw [compactLoop_err db.file db.index _ [] [] 0
      (fun q hq => mem_fst_lookup_isSome hq)
      ⟨k, List.mem_map.mpr ⟨(k, off), idxLookup_mem hL, rfl⟩, off, hL, hbad⟩]
  · intro db k h
    unfold close at h
    cases hC : compactLoop db.file db.index (db.index.map Prod.fst) [] [] 0 with
    | ok p => rw [hC] at h; cases h
    | error e =>
      rw [hC] at h
      cases h
      exact compactLoop_ne_keyNotFound db.file db.index _ [] [] 0 k
        (fun q hq => mem_fst_lookup_isSome hq) hC

theorem compaction_missing_entry_amended_witness :
    close ⟨[], 0, [([1], 50)]⟩ = .error DbError.ioError :=
  compaction_missing_entry_amended.1 ⟨[], 0, [([1], 50)]⟩ ⟨[1], 50, by decide, by decide⟩

/-! ## Log parsing: raw entries and the replay fold

A "raw entry" is a pair (length-prefix bytes, payload bytes) as laid out in
the file.  These definitions describe the file layout that `set`/`delete`
produce and that `new`'s replay loop consumes; they are the vocabulary in
which the replay loop of `EmbeddedDatabase::new` is characterized. -/

def rawBytes (e : List Nat × List Nat) : List Nat := e.1 ++ e.2

def rawConcat : List (List Nat × List Nat) → List Nat
  | [] => []
  | e :: es => rawBytes e ++ rawConcat es

/-- Well-formed raw entry: 8 prefix bytes declaring the payload length, and
a payload that decodes. -/
def RawWF (e : List Nat × List Nat) : Prop :=
  e.1.length = 8 ∧ e.2.length = leDecode e.1 ∧ (deserializeRecord e.2).isSome

/-- The record a payload decodes to (meaningful when it decodes at all). -/
def decRec (bs : List Nat) : Record := (deserializeRecord bs).getD ⟨[], []⟩

/-- The index update replay performs for one decoded record found at `pos`:
tombstones remove the key, live records insert `key ↦ pos`. -/
def stepIdx (idx : Index) (r : Record) (pos : Nat) : Index :=
  if r.val = [] then idxRemove idx r.key else idxInsert idx r.key pos

/-- Folding the replay index updates over a list of raw entries laid out
from `pos`. -/
def foldRaw : Index → List (List Nat × List Nat) → Nat → Index
  | idx, [], _ => idx
  | idx, e :: es, pos => foldRaw (stepIdx idx (decRec e.2) pos) es (pos + 8 + e.2.length)

/-- The raw entry `set`/`delete` write for a record. -/
def recRaw (r : Record) : List Nat × List Nat :=
  (u64le (serializeRecord r).length, serializeRecord r)

/-- The file contents produced by a sequence of appended records. -/
def encodeEntries (rs : List Record) : List Nat := rawConcat (rs.map recRaw)

theorem decRec_serialize {r : Record} (h : GoodRec r) :
    decRec (serializeRecord r) = r := by
  unfold decRec
  rw [deserialize_serialize h]
  rfl

theorem recRaw_wf {r : Record} (h : GoodRec r) : RawWF (recRaw r) := by
  refine ⟨length_u64le _, ?_, ?_⟩
  · have : (serializeRecord r).length < 2 ^ 64 := by
      rw [length_serializeRecord]
      exact h
    rw [recRaw, leDecode_u64le this]
  · rw [recRaw]
    simp only [deserialize_serialize h, Option.isSome_some]

theorem rawConcat_append (es1 es2 : List (List Nat × List Nat)) :
    rawConcat (es1 ++ es2) = rawConcat es1 ++ rawConcat es2 := by
  induction es1 with
  | nil => rfl
  | cons e es ih => simp [rawConcat, ih, List.append_assoc]

theorem length_le_rawConcat {raws : List (List Nat × List Nat)}
    (h : ∀ e ∈ raws, RawWF e) : raws.length ≤ (rawConcat raws).length := by
  induction raws with
  | nil => simp [rawConcat]
  | cons e es ih =>
    have h8 := (h e (List.mem_cons_self _ _)).1
    have := ih (fun q hq => h q (List.mem_cons_of_mem _ hq))
    simp only [rawConcat, rawBytes, List.length_cons, List.length_append, h8]
    omega

/-- The fold over an appended entry list splits, with the position advanced
by the layout size of the first part. -/
def rawSize : List (List Nat × List Nat) → Nat
  | [] => 0
  | e :: es => 8 + e.2.length + rawSize es

theorem foldRaw_append (es1 es2 : List (List Nat × List Nat)) :
    ∀ (idx : Index) (pos : Nat),
      foldRaw idx (es1 ++ es2) pos
        = foldRaw (foldRaw idx es1 pos) es2 (pos + rawSize es1) := by
  induction es1 with
  | nil =>
    intro idx pos
    simp [foldRaw, rawSize]
  | cons e es ih =>
    intro idx pos
    have hp2 : pos + rawSize (e :: es) = pos + 8 + e.2.length + rawSize es := by
      simp only [rawSize]
      omega
    rw [List.cons_append]
    show foldRaw (stepIdx idx (decRec e.2) pos) (es ++ es2) (pos + 8 + e.2.length) = _
    rw [ih, hp2]
    rfl

theorem length_rawConcat_wf {raws : List (List Nat × List Nat)}
    (h : ∀ e ∈ raws, RawWF e) : (rawConcat raws).length = rawSize raws := by
  induction raws with
  | nil => rfl
  | cons e es ih =>
    have h8 := (h e (List.mem_cons_self _ _)).1
    simp only [rawConcat, rawBytes, List.length_append, rawSize, h8,
      ih (fun q hq => h q (List.mem_cons_of_mem _ hq))]

/-! ## Characterization of the replay loop on a parsed file -/

theorem replayFrom_raw :
    ∀ (raws : List (List Nat × List Nat)) (fuel pos : Nat) (file : List Nat)
      (idx : Index) (frag : List Nat),
      (∀ e ∈ raws, RawWF e) → raws.length < fuel → pos ≤ file.length →
      file.drop pos = rawConcat raws ++ frag → frag.length < 8 →
      replayFrom fuel file pos idx = .ok (foldRaw idx raws pos) := by
  intro raws
  induction raws with
  | nil =>
    intro fuel pos file idx frag _ hfuel hpos hdrop hfrag
    obtain ⟨f, rfl⟩ : ∃ f, fuel = f + 1 := ⟨fuel - 1, by omega⟩
    have hlen : file.length - pos < 8 := by
      have := congrArg List.length hdrop
      simp [List.length_drop, rawConcat] at this
      omega
    simp only [replayFrom, foldRaw]
    by_cases hp : pos < file.length
    · rw [if_pos hp, if_neg (by omega)]
    · rw [if_neg hp]
  | cons e es ih =>
    intro fuel pos file idx frag hwf hfuel hpos hdrop hfrag
    obtain ⟨f, rfl⟩ : ∃ f, fuel = f + 1 := ⟨fuel - 1, by omega⟩
    obtain ⟨h8, hlen2, hdec⟩ := hwf e (List.mem_cons_self _ _)
    obtain ⟨r, hr⟩ := Option.isSome_iff_exists.mp hdec
    have hdrop' : file.drop pos = e.1 ++ (e.2 ++ (rawConcat es ++ frag)) := by
      rw [hdrop]
      simp [rawConcat, rawBytes, List.append_assoc]
    have hflen : file.length - pos
        = 8 + e.2.length + ((rawConcat es).length + frag.length) := by
      have := congrArg List.length hdrop'
      simp only [List.length_drop, List.length_append, h8] at this
      omega
    have hp : pos < file.length := by omega
    have hp8 : pos + 8 ≤ file.length := by omega
    have hlenAt : entryLenAt file pos = e.2.length := by
      unfold entryLenAt
      rw [hdrop', take_all_append e.1 _ 8 h8.symm, ← hlen2]
    have hp8l : pos + 8 + entryLenAt file pos ≤ file.length := by
      rw [hlenAt]
      omega
    have hslice : (file.drop (pos + 8)).take (entryLenAt file pos) = e.2 := by
      rw [hlenAt]
      have hdd : file.drop (pos + 8) = e.2 ++ (rawConcat es ++ frag) := by
        rw [← List.drop_drop, hdrop', drop_all_append e.1 _ 8 h8.symm]
      rw [hdd, take_all_append e.2 _ _ rfl]
    have hdr : decRec e.2 = r := by
      unfold decRec
      rw [hr]
      rfl
    have hnext : file.drop (pos + 8 + entryLenAt file pos) = rawConcat es ++ frag := by
      rw [hlenAt, Nat.add_assoc pos 8 e.2.length, ← List.drop_drop]
      have hd2 : file.drop pos = (e.1 ++ e.2) ++ (rawConcat es ++ frag) := by
        rw [hdrop', List.append_assoc]
      rw [hd2, drop_all_append _ _ _ (by simp [List.length_append, h8])]
    simp only [replayFrom, foldRaw]
    rw [if_pos hp, if_pos hp8, if_pos hp8l, hslice, hr]
    dsimp only
    rw [hdr]
    simp only [stepIdx]
    have hr2 := ih f (pos + 8 + e.2.length) file
      (if r.val = [] then idxRemove idx r.key else idxInsert idx r.key pos)
      frag (fun q hq => hwf q (List.mem_cons_of_mem _ hq))
      (by simp only [List.length_cons] at hfuel; omega)
      (by omega) (by rw [← hlenAt]; exact hnext) hfrag
    rw [hlenAt]
    exact hr2

theorem openDB_raw {raws : List (List Nat × List Nat)} {frag : List Nat}
    (hwf : ∀ e ∈ raws, RawWF e) (hfrag : frag.length < 8) :
    openDB (rawConcat raws ++ frag)
      = .ok ⟨rawConcat raws ++ frag, 0, foldRaw [] raws 0⟩ := by
  unfold openDB
  rw [replayFrom_raw raws _ 0 _ [] frag hwf
    (by
      have h1 := length_le_rawConcat hwf
      simp only [List.length_append]
      omega)
    (Nat.zero_le _) rfl hfrag]

theorem openDB_entries {rs : List Record} (hgood : ∀ r ∈ rs, GoodRec r) :
    openDB (encodeEntries rs)
      = .ok ⟨encodeEntries rs, 0, foldRaw [] (rs.map recRaw) 0⟩ := by
  have hwf : ∀ e ∈ rs.map recRaw, RawWF e := by
    intro e he
    rcases List.mem_map.mp he with ⟨r, hr, rfl⟩
    exact recRaw_wf (hgood r hr)
  have := @openDB_raw (rs.map recRaw) [] hwf (by norm_num)
  simpa [encodeEntries] using this

/-- C4: Torn-tail recovery on open — for every log file consisting of
well-formed entries followed by a trailing fragment of fewer than 8 bytes
(including zero trailing bytes), `open` succeeds without any error, the
fragment is silently discarded, and the index built is exactly the one built
from the well-formed entries alone. -/
theorem open_torn_tail (rs : List Record) (frag : List Nat)
    (hgood : ∀ r ∈ rs, GoodRec r) (hfrag : frag.length < 8) :
    ∃ idx,
      openDB (encodeEntries rs ++ frag) = .ok ⟨encodeEntries rs ++ frag, 0, idx⟩ ∧
      openDB (encodeEntries rs) = .ok ⟨encodeEntries rs, 0, idx⟩ := by
  have hwf : ∀ e ∈ rs.map recRaw, RawWF e := by
    intro e he
    rcases List.mem_map.mp he with ⟨r, hr, rfl⟩
    exact recRaw_wf (hgood r hr)
  exact ⟨foldRaw [] (rs.map recRaw) 0, openDB_raw hwf hfrag, openDB_entries hgood⟩

theorem open_torn_tail_witness :
    (∀ r ∈ [Record.mk [1] [2]], GoodRec r) ∧ ([7, 7] : List Nat).length < 8 ∧
      ∃ idx,
        openDB (encodeEntries [⟨[1], [2]⟩] ++ [7, 7])
            = .ok ⟨encodeEntries [⟨[1], [2]⟩] ++ [7, 7], 0, idx⟩ ∧
        openDB (encodeEntries [⟨[1], [2]⟩]) = .ok ⟨encodeEntries [⟨[1], [2]⟩], 0, idx⟩ :=
  ⟨by decide, by decide, open_torn_tail [⟨[1], [2]⟩] [7, 7] (by decide) (by decide)⟩

/-- C9: Empty-value divergence at the public interface — after
`set(key, "")`, `get(key)` on the same open handle returns `Some("")` (the
key is inserted live into the index), but after reopening the file, replay
treats that entry as a tombstone and `get(key)` returns `None`. -/
theorem empty_value_divergence (db : DB) (rs : List Record) (key : List Nat)
    (hfile : db.file = encodeEntries rs) (hgood : ∀ r ∈ rs, GoodRec r)
    (hkey : GoodRec ⟨key, []⟩) :
    (dbGet (set db key []) key).1 = .ok (some []) ∧
      ∃ db2, openDB (set db key []).file = .ok db2 ∧
        (dbGet db2 key).1 = .ok none := by
  refine ⟨get_set_self db key [] hkey, ?_⟩
  have hfile' : (set db key []).file = encodeEntries (rs ++ [Record.mk key []]) := by
    rw [set_file, hfile]
    unfold encodeEntries
    rw [List.map_append, rawConcat_append]
    simp [rawConcat, rawBytes, recRaw]
  have hgood' : ∀ r ∈ rs ++ [Record.mk key []], GoodRec r := by
    intro r hr
    rcases List.mem_append.mp hr with h | h
    · exact hgood r h
    · rw [List.mem_singleton.mp h]
      exact hkey
  refine ⟨DB.mk (encodeEntries (rs ++ [Record.mk key []])) 0
    (foldRaw [] ((rs ++ [Record.mk key []]).map recRaw) 0), ?_, ?_⟩
  · rw [hfile']
    exact openDB_entries hgood'
  · have hidx : idxLookup (foldRaw [] ((rs ++ [Record.mk key []]).map recRaw) 0) key
        = none := by
      rw [List.map_append, foldRaw_append]
      simp only [List.map_cons, List.map_nil, foldRaw, recRaw]
      rw [decRec_serialize hkey]
      simp only [stepIdx, if_pos rfl]
      exact idxLookup_remove_self _ _
    rw [get_absent hidx]

/-! ## Compaction success: the rewrite loop characterized

`insFold` replays the sequence of `compact_index.insert` calls; `rawPos`
gives the positions at which the copied entries land in the new file;
`keysSize` is the total size of the entries the loop copies. -/

def insFold : Index → List (List Nat × Nat) → Index
  | ni, [] => ni
  | ni, (k, p) :: rest => insFold (idxInsert ni k p) rest

def rawPos : Nat → List (List Nat × List Nat) → List Nat
  | _, [] => []
  | p, e :: es => p :: rawPos (p + 8 + e.2.length) es

def keysSize (file : List Nat) (idx : Index) : List (List Nat) → Nat
  | [] => 0
  | k :: ks =>
    (match idxLookup idx k with
      | some o => 8 + entryLenAt file o
      | none => 0) + keysSize file idx ks

theorem insFold_lookup_not_mem :
    ∀ (pairs : List (List Nat × Nat)) (ni : Index) (k : List Nat),
      k ∉ pairs.map Prod.fst →
      idxLookup (insFold ni pairs) k = idxLookup ni k := by
  intro pairs
  induction pairs with
  | nil => intro ni k _; rfl
  | cons q rest ih =>
    obtain ⟨qk, qo⟩ := q
    intro ni k hk
    simp only [List.map_cons, List.mem_cons, not_or] at hk
    simp only [insFold]
    rw [ih _ _ hk.2, idxLookup_insert_ne _ _ hk.1]

theorem insFold_lookup_of_mem :
    ∀ (pairs : List (List Nat × Nat)) (ni : Index) (k : List Nat) (np : Nat),
      (pairs.map Prod.fst).Nodup → (k, np) ∈ pairs →
      idxLookup (insFold ni pairs) k = some np := by
  intro pairs
  induction pairs with
  | nil => intro _ _ _ _ h; cases h
  | cons q rest ih =>
    obtain ⟨qk, qo⟩ := q
    intro ni k np hnd hmem
    simp only [List.map_cons, List.nodup_cons] at hnd
    rcases List.mem_cons.mp hmem with h | h
    · injection h with h1 h2
      subst h1; subst h2
      simp only [insFold]
      rw [insFold_lookup_not_mem rest _ _ hnd.1, idxLookup_insert_self]
    · simp only [insFold]
      exact ih _ _ _ hnd.2 h

theorem mem_insFold :
    ∀ (pairs : List (List Nat × Nat)) (ni : Index) (p : List Nat × Nat),
      p ∈ insFold ni pairs → p ∈ ni ∨ p ∈ pairs := by
  intro pairs
  induction pairs with
  | nil => intro _ _ h; exact Or.inl h
  | cons q rest ih =>
    obtain ⟨qk, qo⟩ := q
    intro ni p hp
    simp only [insFold] at hp
    rcases ih _ _ hp with h | h
    · rcases mem_idxInsert h with h2 | h2
      · exact Or.inr (by rw [h2]; exact List.mem_cons_self _ _)
      · exact Or.inl h2.1
    · exact Or.inr (List.mem_cons_of_mem _ h)

/-- One combined item per compacted key: ((key, new offset), raw entry). -/
abbrev CItem := (List Nat × Nat) × (List Nat × List Nat)

theorem compactLoop_spec (oldFile : List Nat) (oldIdx : Index) :
    ∀ (ks : List (List Nat)) (nf : List Nat) (ni : Index),
      (∀ k ∈ ks, ∃ o, idxLookup oldIdx k = some o ∧ (entryBytesAt oldFile o).isSome) →
      ∃ items : List CItem,
        compactLoop oldFile oldIdx ks nf ni nf.length
            = .ok (nf ++ rawConcat (items.map Prod.snd),
                insFold ni (items.map Prod.fst)) ∧
        items.map (fun t => t.1.1) = ks ∧
        items.map (fun t => t.1.2) = rawPos nf.length (items.map Prod.snd) ∧
        (∀ t ∈ items, ∃ o, idxLookup oldIdx t.1.1 = some o ∧
          entryBytesAt oldFile o = some t.2 ∧
          entryBytesAt (nf ++ rawConcat (items.map Prod.snd)) t.1.2 = some t.2) ∧
        (rawConcat (items.map Prod.snd)).length = keysSize oldFile oldIdx ks := by
  intro ks
  induction ks with
  | nil =>
    intro nf ni _
    refine ⟨[], ?_, rfl, rfl, fun t ht => absurd ht (List.not_mem_nil t), rfl⟩
    simp [compactLoop, rawConcat, insFold]
  | cons k ks ih =>
    intro nf ni hread
    obtain ⟨o, ho, hsome⟩ := hread k (List.mem_cons_self _ _)
    obtain ⟨e, he⟩ := Option.isSome_iff_exists.mp hsome
    obtain ⟨h1, h2, he1, he2⟩ := entryBytesAt_some_elim he
    obtain ⟨hw1, hw2⟩ := entryBytesAt_some_wf he
    have hlen_e : entryLenAt oldFile o = e.2.length := by
      rw [hw2, he1]
      rfl
    have hrb : (rawBytes e).length = 8 + e.2.length := by
      simp [rawBytes, List.length_append, hw1]
    have hnf1 : (nf ++ rawBytes e).length = nf.length + 8 + e.2.length := by
      simp [List.length_append, hrb]
      omega
    obtain ⟨items', hc', hk', hp', ht', hs'⟩ :=
      ih (nf ++ rawBytes e) (idxInsert ni k nf.length)
        (fun q hq => hread q (List.mem_cons_of_mem _ hq))
    refine ⟨((k, nf.length), e) :: items', ?_, ?_, ?_, ?_, ?_⟩
    · simp only [compactLoop]
      rw [ho]
      dsimp only
      rw [if_pos h1, if_pos h2]
      have harg : nf ++ (oldFile.drop o).take 8
          ++ (oldFile.drop (o + 8)).take (entryLenAt oldFile o)
          = nf ++ rawBytes e := by
        rw [← he1, ← he2]
        simp [rawBytes, List.append_assoc]
      have hpos_arg : nf.length + 8 + entryLenAt oldFile o = (nf ++ rawBytes e).length := by
        rw [hlen_e, hnf1]
      rw [harg, hpos_arg, hc']
      simp only [List.map_cons, rawConcat, insFold, List.append_assoc]
    · simp only [List.map_cons, hk']
    · simp only [List.map_cons, rawPos, hp', hnf1]
    · intro t ht
      have hfile_eq : (nf ++ rawBytes e) ++ rawConcat (items'.map Prod.snd)
          = nf ++ rawConcat ((((k, nf.length), e) :: items').map Prod.snd) := by
        simp [rawConcat, List.append_assoc]
      rcases List.mem_cons.mp ht with h | h
      · subst h
        refine ⟨o, ho, he, ?_⟩
        have hhere : entryBytesAt ((nf ++ e.1 ++ e.2) ++ rawConcat (items'.map Prod.snd))
            nf.length = some e := by
          refine entryBytesAt_append _ ?_
          have := entryBytesAt_here nf e.1 e.2 hw1 hw2
          exact this
        rw [← hfile_eq]
        have hshape : (nf ++ e.1 ++ e.2) ++ rawConcat (items'.map Prod.snd)
            = (nf ++ rawBytes e) ++ rawConcat (items'.map Prod.snd) := by
          simp [rawBytes, List.append_assoc]
        rw [← hshape]
        exact hhere
      · obtain ⟨o2, ho2, hb2, hn2⟩ := ht' t h
        refine ⟨o2, ho2, hb2, ?_⟩
        rw [← hfile_eq]
        exact hn2
    · simp only [List.map_cons, rawConcat, List.length_append, hrb, keysSize]
      rw [ho]
      dsimp only
      rw [← hs', hlen_e]

theorem nodup_insFold :
    ∀ (pairs : List (List Nat × Nat)) (ni : Index),
      (ni.map Prod.fst).Nodup → ((insFold ni pairs).map Prod.fst).Nodup := by
  intro pairs
  induction pairs with
  | nil => intro ni h; exact h
  | cons q rest ih =>
    obtain ⟨qk, qo⟩ := q
    intro ni h
    exact ih _ (nodup_fst_idxInsert h qk qo)

theorem insFold_eq_foldRaw :
    ∀ (items : List CItem) (idx : Index) (pos : Nat),
      items.map (fun t => t.1.2) = rawPos pos (items.map Prod.snd) →
      (∀ t ∈ items, ∃ r, deserializeRecord t.2.2 = some r ∧ r.key = t.1.1 ∧ r.val ≠ []) →
      insFold idx (items.map Prod.fst) = foldRaw idx (items.map Prod.snd) pos := by
  intro items
  induction items with
  | nil => intro idx pos _ _; rfl
  | cons t items ih =>
    intro idx pos hpos hdec
    simp only [List.map_cons, rawPos] at hpos
    obtain ⟨hp1, hp2⟩ := List.cons.injEq _ _ _ _ ▸ hpos
    obtain ⟨r, hr, hk, hv⟩ := hdec t (List.mem_cons_self _ _)
    have hdr : decRec t.2.2 = r := by
      unfold decRec
      rw [hr]
      rfl
    simp only [List.map_cons, insFold, foldRaw]
    have hstep : stepIdx idx (decRec t.2.2) pos = idxInsert idx t.1.1 pos := by
      rw [hdr, stepIdx, if_neg hv, hk]
    rw [hstep, ← hp1]
    exact ih _ _ (by rw [hp1]; exact hp2) (fun q hq => hdec q (List.mem_cons_of_mem _ hq))

/-- Master lemma for `close` on a state satisfying the offset-index
invariant: compaction succeeds; the result satisfies the invariant, reopens
to itself, preserves key presence and the stored record of every key, and
has the size accounted by `keysSize`. -/
theorem close_spec {db : DB} (hwf : WFdb db) :
    ∃ db', close db = .ok db' ∧
      WFdb db' ∧
      openDB db'.file = .ok db' ∧
      (∀ k, idxLookup db'.index k = none ↔ idxLookup db.index k = none) ∧
      (∀ k o', idxLookup db'.index k = some o' →
        ∃ o r, idxLookup db.index k = some o ∧ entryAt db.file o = some r ∧
          r.key = k ∧ r.val ≠ [] ∧ entryAt db'.file o' = some r) ∧
      db'.file.length = keysSize db.file db.index (db.index.map Prod.fst) ∧
      db'.cursor = 0 := by
  obtain ⟨hnd, hbind⟩ := hwf
  have hlive : ∀ k o, idxLookup db.index k = some o →
      ∃ r, entryAt db.file o = some r ∧ r.key = k ∧ r.val ≠ [] := by
    intro k o h
    exact entryLiveB_iff.mp (hbind (k, o) (idxLookup_mem h))
  have hread : ∀ k ∈ db.index.map Prod.fst,
      ∃ o, idxLookup db.index k = some o ∧ (entryBytesAt db.file o).isSome := by
    intro k hk
    obtain ⟨o, ho⟩ := mem_fst_lookup_isSome hk
    obtain ⟨r, hr, _, _⟩ := hlive k o ho
    obtain ⟨e, he, _⟩ := entryAt_eq_some_iff.mp hr
    exact ⟨o, ho, by rw [he]; rfl⟩
  obtain ⟨items, hc, hks, hpos, hitems, hsize⟩ :=
    compactLoop_spec db.file db.index (db.index.map Prod.fst) [] [] hread
  have hc0 : compactLoop db.file db.index (db.index.map Prod.fst) [] [] 0
      = .ok (rawConcat (items.map Prod.snd), insFold [] (items.map Prod.fst)) := by
    simpa using hc
  have hpos0 : items.map (fun t => t.1.2) = rawPos 0 (items.map Prod.snd) := by
    simpa using hpos
  have hitems0 : ∀ t ∈ items, ∃ o, idxLookup db.index t.1.1 = some o ∧
      entryBytesAt db.file o = some t.2 ∧
      entryBytesAt (rawConcat (items.map Prod.snd)) t.1.2 = some t.2 := by
    intro t ht
    obtain ⟨o, h1, h2, h3⟩ := hitems t ht
    exact ⟨o, h1, h2, by simpa using h3⟩
  have hpf : (items.map Prod.fst).map Prod.fst = db.index.map Prod.fst := by
    rw [List.map_map]
    exact hks
  have hnd' : ((items.map Prod.fst).map Prod.fst).Nodup := by
    rw [hpf]
    exact hnd
  set nf := rawConcat (items.map Prod.snd) with hnf
  set ni := insFold [] (items.map Prod.fst) with hni
  -- decoded record of every item
  have hitemrec : ∀ t ∈ items, ∃ r, deserializeRecord t.2.2 = some r ∧
      r.key = t.1.1 ∧ r.val ≠ [] := by
    intro t ht
    obtain ⟨o, ho, hb, _⟩ := hitems0 t ht
    obtain ⟨r, hr, hk, hv⟩ := hlive t.1.1 o ho
    obtain ⟨e', he', hd'⟩ := entryAt_eq_some_iff.mp hr
    rw [hb] at he'
    injection he' with he2
    exact ⟨r, by rw [he2]; exact hd', hk, hv⟩
  -- lookup characterization of the new index
  have hlook_mem : ∀ t ∈ items, idxLookup ni t.1.1 = some t.1.2 := by
    intro t ht
    have : (t.1.1, t.1.2) ∈ items.map Prod.fst := by
      have := List.mem_map_of_mem Prod.fst ht
      simpa using this
    exact insFold_lookup_of_mem _ [] _ _ hnd' this
  have hlook_not : ∀ k, k ∉ db.index.map Prod.fst → idxLookup ni k = none := by
    intro k hk
    rw [hni, insFold_lookup_not_mem _ _ _ (by rw [hpf]; exact hk)]
    rfl
  have hmem_items : ∀ k, k ∈ db.index.map Prod.fst → ∃ t ∈ items, t.1.1 = k := by
    intro k hk
    rw [← hks] at hk
    obtain ⟨t, ht, hteq⟩ := List.mem_map.mp hk
    exact ⟨t, ht, hteq⟩
  have hnone_iff : ∀ k, idxLookup ni k = none ↔ idxLookup db.index k = none := by
    intro k
    constructor
    · intro h
      by_contra hne
      obtain ⟨o, ho⟩ := Option.ne_none_iff_exists'.mp hne
      obtain ⟨t, ht, hteq⟩ := hmem_items k
        (List.mem_map.mpr ⟨(k, o), idxLookup_mem ho, rfl⟩)
      rw [← hteq, hlook_mem t ht] at h
      cases h
    · intro h
      refine hlook_not k (fun hk => ?_)
      obtain ⟨o, ho⟩ := mem_fst_lookup_isSome hk
      rw [ho] at h
      cases h
  have hsome_spec : ∀ k o', idxLookup ni k = some o' →
      ∃ o r, idxLookup db.index k = some o ∧ entryAt db.file o = some r ∧
        r.key = k ∧ r.val ≠ [] ∧ entryAt nf o' = some r := by
    intro k o' h
    have hk : k ∈ db.index.map Prod.fst := by
      by_contra hkn
      rw [hlook_not k hkn] at h
      cases h
    obtain ⟨t, ht, hteq⟩ := hmem_items k hk
    have hsome := hlook_mem t ht
    rw [hteq] at hsome
    rw [hsome] at h
    injection h with ho'
    obtain ⟨o, ho, hb, hbn⟩ := hitems0 t ht
    obtain ⟨r, hr, hk2, hv⟩ := hlive k o (by rw [← hteq]; exact ho)
    obtain ⟨e', he', hd'⟩ := entryAt_eq_some_iff.mp hr
    rw [hb] at he'
    injection he' with he2
    refine ⟨o, r, by rw [← hteq]; exact ho, hr, hk2, hv, ?_⟩
    rw [← ho']
    exact entryAt_eq_some_iff.mpr ⟨t.2, hbn, by rw [he2]; exact hd'⟩
  have hwf' : WFdb ⟨nf, 0, ni⟩ := by
    refine ⟨nodup_insFold _ _ (by simp), ?_⟩
    intro p hp
    rcases mem_insFold _ _ _ hp with h | h
    · cases h
    · obtain ⟨t, ht, hteq⟩ := List.mem_map.mp h
      obtain ⟨o, ho, hb, hbn⟩ := hitems0 t ht
      obtain ⟨r, hrd, hk2, hv⟩ := hitemrec t ht
      refine entryLiveB_iff.mpr ⟨r, ?_, ?_, hv⟩
      · show entryAt nf p.2 = some r
        rw [← hteq]
        exact entryAt_eq_some_iff.mpr ⟨t.2, hbn, hrd⟩
      · rw [← hteq]
        exact hk2
  have hreopen : openDB nf = .ok ⟨nf, 0, ni⟩ := by
    have hwfes : ∀ e ∈ items.map Prod.snd, RawWF e := by
      intro e he
      obtain ⟨t, ht, hteq⟩ := List.mem_map.mp he
      obtain ⟨o, ho, hb, _⟩ := hitems0 t ht
      obtain ⟨hw1, hw2⟩ := entryBytesAt_some_wf hb
      obtain ⟨r, hrd, _, _⟩ := hitemrec t ht
      refine ⟨by rw [← hteq]; exact hw1, by rw [← hteq]; exact hw2, ?_⟩
      rw [← hteq, hrd]
      rfl
    have h0 := @openDB_raw (items.map Prod.snd) [] hwfes (by norm_num)
    have hidx_eq : foldRaw [] (items.map Prod.snd) 0 = ni := by
      rw [hni, insFold_eq_foldRaw items [] 0 hpos0 hitemrec]
    rw [hnf]
    simpa [hidx_eq] using h0
  refine ⟨⟨nf, 0, ni⟩, ?_, hwf', hreopen, hnone_iff, hsome_spec, by simpa using hsize, rfl⟩
  unfold close
  rw [hc0]

/-- C1: Compaction preserves the live logical state — for every engine state
satisfying the offset-index invariant, after `close()` succeeds every key
that was present in the index is retrievable via `get` with the same value
as before, every absent key is still absent, and the same holds after a
further reopen of the compacted file. -/
theorem close_preserves_state (db db' : DB) (hwf : WFdb db)
    (hclose : close db = .ok db') :
    (∀ k, (dbGet db' k).1 = (dbGet db k).1) ∧
      (∀ k, idxLookup db'.index k = none ↔ idxLookup db.index k = none) ∧
      ∃ db2, openDB db'.file = .ok db2 ∧ ∀ k, (dbGet db2 k).1 = (dbGet db k).1 := by
  obtain ⟨dbc, hc, _, hro, hnone, hsome, _, _⟩ := close_spec hwf
  rw [hclose] at hc
  injection hc with heq
  subst heq
  have hgets : ∀ k, (dbGet db' k).1 = (dbGet db k).1 := by
    intro k
    cases hL : idxLookup db'.index k with
    | none =>
      rw [get_absent hL, get_absent ((hnone k).mp hL)]
    | some o' =>
      obtain ⟨o, r, ho, hE, _, _, hE'⟩ := hsome k o' hL
      rw [get_found hL hE', get_found ho hE]
  exact ⟨hgets, hnone, db', hro, hgets⟩

theorem close_preserves_state_witness :
    WFdb (set ⟨[], 0, []⟩ [1] [2]) ∧
      close (set ⟨[], 0, []⟩ [1] [2])
        = .ok ⟨u64le 18 ++ serializeRecord ⟨[1], [2]⟩, 0, [([1], 0)]⟩ ∧
      (dbGet ⟨u64le 18 ++ serializeRecord ⟨[1], [2]⟩, 0, [([1], 0)]⟩ [1]).1
        = (dbGet (set ⟨[], 0, []⟩ [1] [2]) [1]).1 :=
  ⟨by decide, by decide,
    (close_preserves_state (set ⟨[], 0, []⟩ [1] [2])
      ⟨u64le 18 ++ serializeRecord ⟨[1], [2]⟩, 0, [([1], 0)]⟩
      (by decide) (by decide)).1 [1]⟩

theorem empty_value_divergence_witness :
    (DB.mk [] 0 []).file = encodeEntries [] ∧ GoodRec ⟨[1], []⟩ ∧
      (dbGet (set ⟨[], 0, []⟩ [1] []) [1]).1 = .ok (some []) ∧
      ∃ db2, openDB (set ⟨[], 0, []⟩ [1] []).file = .ok db2 ∧
        (dbGet db2 [1]).1 = .ok none :=
  ⟨by decide, by decide,
    empty_value_divergence ⟨[], 0, []⟩ [] [1] (by decide)
      (fun r hr => absurd hr (List.not_mem_nil r)) (by decide)⟩

/-! ## Invariant preservation by each operation -/

theorem wf_set {db : DB} (hwf : WFdb db) {k v : List Nat} (hv : v ≠ [])
    (hg : GoodRec ⟨k, v⟩) : WFdb (set db k v) := by
  obtain ⟨hnd, hbind⟩ := hwf
  constructor
  · rw [set_index]
    exact nodup_fst_idxInsert hnd _ _
  · intro p hp
    rw [set_index] at hp
    rcases mem_idxInsert hp with h | h
    · rw [h]
      refine entryLiveB_iff.mpr ⟨⟨k, v⟩, ?_, rfl, hv⟩
      rw [set_file]
      exact entryAt_here hg
    · rw [set_file, List.append_assoc]
      exact entryLiveB_append _ (hbind p h.1)

theorem wf_delete {db : DB} (hwf : WFdb db) (k : List Nat) : WFdb (delete db k) := by
  obtain ⟨hnd, hbind⟩ := hwf
  constructor
  · rw [delete_index]
    exact nodup_fst_idxRemove hnd k
  · intro p hp
    rw [delete_index] at hp
    rw [delete_file, List.append_assoc]
    exact entryLiveB_append _ (hbind p (mem_idxRemove hp).1)

theorem wf_get {db : DB} (hwf : WFdb db) (k : List Nat) : WFdb (dbGet db k).2 := by
  obtain ⟨hf, hi⟩ := get_frame db k
  unfold WFdb
  rw [hf, hi]
  exact hwf

theorem wf_close {db db' : DB} (hwf : WFdb db) (hclose : close db = .ok db') :
    WFdb db' := by
  obtain ⟨dbc, hc, hwfc, _⟩ := close_spec hwf
  rw [hclose] at hc
  injection hc with heq
  rw [heq]
  exact hwfc

/-- Replay maintains the invariant over arbitrary file contents: every index
binding it ever creates points at a live decodable entry of the file. -/
theorem replay_wf :
    ∀ (fuel : Nat) (file : List Nat) (pos : Nat) (idx idx' : Index),
      (idx.map Prod.fst).Nodup → (∀ p ∈ idx, entryLiveB file p.1 p.2 = true) →
      replayFrom fuel file pos idx = .ok idx' →
      (idx'.map Prod.fst).Nodup ∧ ∀ p ∈ idx', entryLiveB file p.1 p.2 = true := by
  intro fuel
  induction fuel with
  | zero =>
    intro file pos idx idx' _ _ h
    cases h
  | succ fuel ih =>
    intro file pos idx idx' hnd hbind h
    simp only [replayFrom] at h
    by_cases hp : pos < file.length
    · rw [if_pos hp] at h
      by_cases h1 : pos + 8 ≤ file.length
      · rw [if_pos h1] at h
        by_cases h2 : pos + 8 + entryLenAt file pos ≤ file.length
        · rw [if_pos h2] at h
          cases hD : deserializeRecord ((file.drop (pos + 8)).take (entryLenAt file pos)) with
          | none =>
            rw [hD] at h
            cases h
          | some r =>
            rw [hD] at h
            dsimp only at h
            by_cases hv : r.val = []
            · rw [if_pos hv] at h
              exact ih file _ _ _ (nodup_fst_idxRemove hnd r.key)
                (fun p hp2 => hbind p (mem_idxRemove hp2).1) h
            · rw [if_neg hv] at h
              refine ih file _ _ _ (nodup_fst_idxInsert hnd r.key pos) ?_ h
              intro p hp2
              rcases mem_idxInsert hp2 with h3 | h3
              · rw [h3]
                refine entryLiveB_iff.mpr ⟨r, ?_, rfl, hv⟩
                refine entryAt_eq_some_iff.mpr
                  ⟨((file.drop pos).take 8, (file.drop (pos + 8)).take (entryLenAt file pos)),
                    ?_, hD⟩
                unfold entryBytesAt
                rw [if_pos ⟨h1, h2⟩]
              · exact hbind p h3.1
        · rw [if_neg h2] at h
          cases h
      · rw [if_neg h1] at h
        injection h with heq
        subst heq
        exact ⟨hnd, hbind⟩
    · rw [if_neg hp] at h
      injection h with heq
      subst heq
      exact ⟨hnd, hbind⟩

theorem wf_open {file : List Nat} {db : DB} (h : openDB file = .ok db) : WFdb db := by
  unfold openDB at h
  cases hR : replayFrom (file.length + 1) file 0 [] with
  | ok idx =>
    rw [hR] at h
    injection h with heq
    obtain ⟨hnd, hbind⟩ := replay_wf _ file 0 [] idx (by simp)
      (fun p hp => absurd hp (List.not_mem_nil p)) hR
    rw [← heq]
    exact ⟨hnd, hbind⟩
  | error e =>
    rw [hR] at h
    cases h

/-! ## Trace semantics: operation sequences against the logical model -/

/-- The four public operations applied after open (`get` is included because
the claim quantifies over quiescent points after any completed call). -/
inductive Op where
  | opSet : List Nat → List Nat → Op
  | opDel : List Nat → Op
  | opGet : List Nat → Op
  | opClose : Op
deriving DecidableEq, Repr

def applyOp (db : DB) : Op → Except DbError DB
  | .opSet k v => .ok (set db k v)
  | .opDel k => .ok (delete db k)
  | .opGet k => .ok (dbGet db k).2
  | .opClose => close db

def runOpsFrom : DB → List Op → Except DbError DB
  | db, [] => .ok db
  | db, op :: ops =>
    match applyOp db op with
    | .ok db' => runOpsFrom db' ops
    | .error e => .error e

/-- Running an operation sequence from a freshly opened empty file
(`openDB [] = .ok ⟨[], 0, []⟩`). -/
def runOps (ops : List Op) : Except DbError DB := runOpsFrom ⟨[], 0, []⟩ ops

/-- The logical key→value model: last write wins, deletion removes. -/
abbrev Model := List Nat → Option (List Nat)

def updModel (m : Model) (k : List Nat) (v : Option (List Nat)) : Model :=
  fun q => if q = k then v else m q

def modelFrom : Model → List Op → Model
  | m, [] => m
  | m, .opSet k v :: ops => modelFrom (updModel m k (some v)) ops
  | m, .opDel k :: ops => modelFrom (updModel m k none) ops
  | m, .opGet _ :: ops => modelFrom m ops
  | m, .opClose :: ops => modelFrom m ops

def model (ops : List Op) : Model := modelFrom (fun _ => none) ops

/-- Precondition of the claim: `set` is never called with an empty value
(and, as everywhere, buffer lengths fit in `usize`). -/
def GoodOp : Op → Prop
  | .opSet k v => v ≠ [] ∧ GoodRec ⟨k, v⟩
  | _ => True

instance : DecidablePred GoodOp := fun op => by
  cases op <;> (unfold GoodOp; infer_instance)

/-- The abstraction relation tying an engine state to the logical model:
the state satisfies the offset-index invariant, absent model keys are absent
from the index, and every live model key is indexed at an offset holding its
current logical value. -/
def AbsState (m : Model) (db : DB) : Prop :=
  WFdb db ∧ ∀ k,
    (m k = none → idxLookup db.index k = none) ∧
    (∀ v, m k = some v → ∃ off, idxLookup db.index k = some off ∧
      entryAt db.file off = some ⟨k, v⟩ ∧ v ≠ [])

theorem abs_set {m : Model} {db : DB} (h : AbsState m db) (k v : List Nat)
    (hv : v ≠ []) (hg : GoodRec ⟨k, v⟩) :
    AbsState (updModel m k (some v)) (set db k v) := by
  obtain ⟨hwf, habs⟩ := h
  refine ⟨wf_set hwf hv hg, ?_⟩
  intro q
  constructor
  · intro hq
    unfold updModel at hq
    by_cases hqk : q = k
    · rw [if_pos hqk] at hq
      cases hq
    · rw [if_neg hqk] at hq
      rw [set_index, idxLookup_insert_ne _ _ hqk]
      exact (habs q).1 hq
  · intro w hw
    unfold updModel at hw
    by_cases hqk : q = k
    · rw [if_pos hqk] at hw
      injection hw with hw2
      subst hqk
      subst hw2
      refine ⟨db.file.length, ?_, ?_, hv⟩
      · rw [set_index]
        exact idxLookup_insert_self _ _ _
      · rw [set_file]
        exact entryAt_here hg
    · rw [if_neg hqk] at hw
      obtain ⟨off, ho, hE, hvne⟩ := (habs q).2 w hw
      refine ⟨off, ?_, ?_, hvne⟩
      · rw [set_index, idxLookup_insert_ne _ _ hqk]
        exact ho
      · rw [set_file, List.append_assoc]
        exact entryAt_append _ hE

theorem abs_delete {m : Model} {db : DB} (h : AbsState m db) (k : List Nat) :
    AbsState (updModel m k none) (delete db k) := by
  obtain ⟨hwf, habs⟩ := h
  refine ⟨wf_delete hwf k, ?_⟩
  intro q
  constructor
  · intro hq
    by_cases hqk : q = k
    · subst hqk
      rw [delete_index]
      exact idxLookup_remove_self _ _
    · unfold updModel at hq
      rw [if_neg hqk] at hq
      rw [delete_index, idxLookup_remove_ne _ hqk]
      exact (habs q).1 hq
  · intro w hw
    unfold updModel at hw
    by_cases hqk : q = k
    · rw [if_pos hqk] at hw
      cases hw
    · rw [if_neg hqk] at hw
      obtain ⟨off, ho, hE, hvne⟩ := (habs q).2 w hw
      refine ⟨off, ?_, ?_, hvne⟩
      · rw [delete_index, idxLookup_remove_ne _ hqk]
        exact ho
      · rw [delete_file, List.append_assoc]
        exact entryAt_append _ hE

theorem abs_get {m : Model} {db : DB} (h : AbsState m db) (k : List Nat) :
    AbsState m (dbGet db k).2 := by
  obtain ⟨hf, hi⟩ := get_frame db k
  obtain ⟨hwf, habs⟩ := h
  refine ⟨wf_get hwf k, ?_⟩
  intro q
  rw [hf, hi]
  exact habs q

theorem abs_close {m : Model} {db : DB} (h : AbsState m db) :
    ∃ db', close db = .ok db' ∧ AbsState m db' := by
  obtain ⟨hwf, habs⟩ := h
  obtain ⟨db', hc, hwf', _, hnone, hsome, _, _⟩ := close_spec hwf
  refine ⟨db', hc, hwf', ?_⟩
  intro q
  constructor
  · intro hq
    exact (hnone q).mpr ((habs q).1 hq)
  · intro w hw
    obtain ⟨off, ho, hE, hvne⟩ := (habs q).2 w hw
    cases hL : idxLookup db'.index q with
    | none =>
      rw [(hnone q).mp hL] at ho
      cases ho
    | some o' =>
      obtain ⟨o, r, ho2, hE2, _, _, hE'⟩ := hsome q o' hL
      rw [ho] at ho2
      injection ho2 with ho3
      rw [← ho3] at hE2
      rw [hE] at hE2
      injection hE2 with hr
      refine ⟨o', rfl, ?_, hvne⟩
      rw [← hr] at hE'
      exact hE'

theorem runOps_abs :
    ∀ (ops : List Op) (m : Model) (db : DB),
      (∀ op ∈ ops, GoodOp op) → AbsState m db →
      ∃ db', runOpsFrom db ops = .ok db' ∧ AbsState (modelFrom m ops) db' := by
  intro ops
  induction ops with
  | nil =>
    intro m db _ h
    exact ⟨db, rfl, h⟩
  | cons op ops ih =>
    intro m db hgood h
    have hops := fun q hq => hgood q (List.mem_cons_of_mem _ hq)
    cases op with
    | opSet k v =>
      obtain ⟨hv, hg⟩ := hgood _ (List.mem_cons_self _ _)
      simp only [runOpsFrom, applyOp, modelFrom]
      exact ih _ _ hops (abs_set h k v hv hg)
    | opDel k =>
      simp only [runOpsFrom, applyOp, modelFrom]
      exact ih _ _ hops (abs_delete h k)
    | opGet k =>
      simp only [runOpsFrom, applyOp, modelFrom]
      exact ih _ _ hops (abs_get h k)
    | opClose =>
      obtain ⟨db1, hc, habs1⟩ := abs_close h
      simp only [runOpsFrom, applyOp, modelFrom]
      rw [hc]
      exact ih _ _ hops habs1

theorem abs_init : AbsState (fun _ => none) ⟨[], 0, []⟩ := by
  refine ⟨⟨by simp, fun p hp => absurd hp (List.not_mem_nil p)⟩, ?_⟩
  intro k
  exact ⟨fun _ => rfl, fun v hv => by cases hv⟩

/-- C2: The offset-index invariant — provided `set` is never called with an
empty value, at every quiescent point every key present in the index maps to
an offset holding a decodable record with that key and a non-empty value
equal to the key's current logical value, and every key absent from the
index has been deleted or was never set.  Each of the five operations
(open/new, set, get, delete, close) preserves the invariant, and any
operation sequence run from a fresh engine refines the last-write-wins
model. -/
theorem offset_index_invariant :
    (∀ (file : List Nat) (db : DB), openDB file = .ok db → WFdb db) ∧
    (∀ (db : DB) (k v : List Nat), WFdb db → v ≠ [] → GoodRec ⟨k, v⟩ →
      WFdb (set db k v)) ∧
    (∀ (db : DB) (k : List Nat), WFdb db → WFdb (dbGet db k).2) ∧
    (∀ (db : DB) (k : List Nat), WFdb db → WFdb (delete db k)) ∧
    (∀ (db db' : DB), WFdb db → close db = .ok db' → WFdb db') ∧
    (∀ ops : List Op, (∀ op ∈ ops, GoodOp op) →
      ∃ db, runOps ops = .ok db ∧ WFdb db ∧
        ∀ k, (idxLookup db.index k = none → model ops k = none) ∧
          (∀ off, idxLookup db.index k = some off →
            ∃ v, model ops k = some v ∧ entryAt db.file off = some ⟨k, v⟩ ∧
              v ≠ [])) := by
  refine ⟨fun _ _ h => wf_open h,
    fun _ _ _ hwf hv hg => wf_set hwf hv hg,
    fun _ k hwf => wf_get hwf k,
    fun _ k hwf => wf_delete hwf k,
    fun _ _ hwf hc => wf_close hwf hc, ?_⟩
  intro ops hgood
  obtain ⟨db, hrun, hwf, habs⟩ := runOps_abs ops _ _ hgood abs_init
  refine ⟨db, hrun, hwf, ?_⟩
  intro k
  constructor
  · intro hnone
    cases hm : model ops k with
    | none => rfl
    | some v =>
      obtain ⟨off, ho, _, _⟩ := (habs k).2 v hm
      rw [ho] at hnone
      cases hnone
  · intro off hoff
    cases hm : model ops k with
    | none =>
      rw [(habs k).1 hm] at hoff
      cases hoff
    | some v =>
      obtain ⟨off', ho', hE', hv'⟩ := (habs k).2 v hm
      rw [hoff] at ho'
      injection ho' with ho2
      exact ⟨v, rfl, by rw [ho2]; exact hE', hv'⟩

theorem offset_index_invariant_witness :
    WFdb (set ⟨[], 0, []⟩ [1] [2]) ∧
      ∃ db, runOps [Op.opSet [1] [2], Op.opClose, Op.opGet [1]] = .ok db ∧
        WFdb db ∧
        ∀ k, (idxLookup db.index k = none →
            model [Op.opSet [1] [2], Op.opClose, Op.opGet [1]] k = none) ∧
          (∀ off, idxLookup db.index k = some off →
            ∃ v, model [Op.opSet [1] [2], Op.opClose, Op.opGet [1]] k = some v ∧
              entryAt db.file off = some ⟨k, v⟩ ∧ v ≠ []) :=
  ⟨offset_index_invariant.2.1 ⟨[], 0, []⟩ [1] [2] (by decide) (by decide) (by decide),
    offset_index_invariant.2.2.2.2.2 [Op.opSet [1] [2], Op.opClose, Op.opGet [1]]
      (by decide)⟩

/-! ## Size accounting for compaction (claim C8) -/

/-- Total entry size accounted to the index bindings (8-byte prefix plus the
payload length declared at each recorded offset). -/
def idxSize (file : List Nat) : Index → Nat
  | [] => 0
  | (_, o) :: rest => 8 + entryLenAt file o + idxSize file rest

/-- Record-level replay fold (the index `new` builds on a file written as a
sequence of records). -/
def foldRecs : Index → List Record → Nat → Index
  | idx, [], _ => idx
  | idx, r :: rs, pos =>
    foldRecs (stepIdx idx r pos) rs (pos + 8 + (serializeRecord r).length)

/-- A dead record exists in the entry list: some entry is a tombstone, or is
followed by a later entry with the same key (overwritten or tombstoned). -/
def DeadExists (rs : List Record) : Prop :=
  ∃ l1 r l2, rs = l1 ++ r :: l2 ∧ (r.val = [] ∨ ∃ r' ∈ l2, r'.key = r.key)

theorem foldRaw_recRaw :
    ∀ (rs : List Record) (idx : Index) (pos : Nat), (∀ r ∈ rs, GoodRec r) →
      foldRaw idx (rs.map recRaw) pos = foldRecs idx rs pos := by
  intro rs
  induction rs with
  | nil => intro idx pos _; rfl
  | cons r rs ih =>
    intro idx pos hgood
    have hg := hgood r (List.mem_cons_self _ _)
    simp only [List.map_cons, foldRaw, foldRecs]
    rw [show (recRaw r).2 = serializeRecord r from rfl, decRec_serialize hg]
    exact ih _ _ (fun q hq => hgood q (List.mem_cons_of_mem _ hq))

theorem encodeEntries_append (l1 l2 : List Record) :
    encodeEntries (l1 ++ l2) = encodeEntries l1 ++ encodeEntries l2 := by
  unfold encodeEntries
  rw [List.map_append, rawConcat_append]

theorem length_encodeEntries_cons (r : Record) (rs : List Record) :
    (encodeEntries (r :: rs)).length
      = 8 + (serializeRecord r).length + (encodeEntries rs).length := by
  show (rawBytes (recRaw r) ++ encodeEntries rs).length = _
  simp [rawBytes, recRaw, List.length_append, length_u64le]
  omega

theorem drop_of_parse {F A B : List Nat} {pos : Nat} (h : F.drop pos = A ++ B) :
    F.drop (pos + A.length) = B := by
  rw [← List.drop_drop, h, drop_all_append A B _ rfl]

theorem parse_head_lenAt {F frag : List Nat} {pos : Nat} {r : Record}
    {rs : List Record} (hg : GoodRec r)
    (hdrop : F.drop pos = encodeEntries (r :: rs) ++ frag) :
    entryLenAt F pos = (serializeRecord r).length := by
  have hdrop' : F.drop pos = u64le (serializeRecord r).length
      ++ (serializeRecord r ++ (encodeEntries rs ++ frag)) := by
    rw [hdrop]
    show (rawBytes (recRaw r) ++ encodeEntries rs) ++ frag = _
    simp [rawBytes, recRaw, List.append_assoc]
  unfold entryLenAt
  rw [hdrop', take_all_append _ _ 8 (length_u64le _).symm, leDecode_u64le]
  rw [length_serializeRecord]
  exact hg

theorem parse_head_next {F frag : List Nat} {pos : Nat} {r : Record}
    {rs : List Record}
    (hdrop : F.drop pos = encodeEntries (r :: rs) ++ frag) :
    F.drop (pos + 8 + (serializeRecord r).length) = encodeEntries rs ++ frag := by
  have hdrop' : F.drop pos = rawBytes (recRaw r) ++ (encodeEntries rs ++ frag) := by
    rw [hdrop]
    show (rawBytes (recRaw r) ++ encodeEntries rs) ++ frag = _
    rw [List.append_assoc]
  have := drop_of_parse hdrop'
  have hlen : (rawBytes (recRaw r)).length = 8 + (serializeRecord r).length := by
    simp [rawBytes, recRaw, length_u64le]
  rw [hlen] at this
  rw [show pos + 8 + (serializeRecord r).length
    = pos + (8 + (serializeRecord r).length) by omega]
  exact this

theorem idxSize_remove_le (F : List Nat) :
    ∀ (idx : Index) (k : List Nat), idxSize F (idxRemove idx k) ≤ idxSize F idx := by
  intro idx
  induction idx with
  | nil => intro k; simp [idxRemove]
  | cons p rest ih =>
    obtain ⟨pk, po⟩ := p
    intro k
    by_cases hp : pk = k
    · simp only [idxRemove, if_pos hp, idxSize]
      have := ih k
      omega
    · simp only [idxRemove, if_neg hp, idxSize]
      have := ih k
      omega

theorem idxSize_remove_lookup (F : List Nat) :
    ∀ (idx : Index) (k : List Nat) (o : Nat), idxLookup idx k = some o →
      idxSize F (idxRemove idx k) + 8 + entryLenAt F o ≤ idxSize F idx := by
  intro idx
  induction idx with
  | nil => intro k o h; cases h
  | cons p rest ih =>
    obtain ⟨pk, po⟩ := p
    intro k o h
    simp only [idxLookup] at h
    by_cases hp : pk = k
    · rw [if_pos hp] at h
      injection h with h2
      subst h2
      simp only [idxRemove, if_pos hp, idxSize]
      have := idxSize_remove_le F rest k
      omega
    · rw [if_neg hp] at h
      simp only [idxRemove, if_neg hp, idxSize]
      have := ih k o h
      omega

theorem idxSize_insert (F : List Nat) (idx : Index) (k : List Nat) (p : Nat) :
    idxSize F (idxInsert idx k p) = 8 + entryLenAt F p + idxSize F (idxRemove idx k) :=
  rfl

theorem idxSize_stepIdx_le (F : List Nat) (idx : Index) (r : Record) (pos : Nat) :
    idxSize F (stepIdx idx r pos) ≤ idxSize F idx + (8 + entryLenAt F pos) := by
  unfold stepIdx
  by_cases hv : r.val = []
  · rw [if_pos hv]
    have := idxSize_remove_le F idx r.key
    omega
  · rw [if_neg hv, idxSize_insert]
    have := idxSize_remove_le F idx r.key
    omega

theorem idxSize_foldRecs_le :
    ∀ (rs : List Record) (F frag : List Nat) (pos : Nat) (idx : Index),
      (∀ r ∈ rs, GoodRec r) → F.drop pos = encodeEntries rs ++ frag →
      idxSize F (foldRecs idx rs pos) ≤ idxSize F idx + (encodeEntries rs).length := by
  intro rs
  induction rs with
  | nil =>
    intro F frag pos idx _ _
    simp [foldRecs, encodeEntries, rawConcat]
  | cons r rs ih =>
    intro F frag pos idx hgood hdrop
    have hg := hgood r (List.mem_cons_self _ _)
    have hlenAt : entryLenAt F pos = (serializeRecord r).length :=
      parse_head_lenAt hg hdrop
    have hnext := parse_head_next hdrop
    have hstep := idxSize_stepIdx_le F idx r pos
    have hih := ih F frag (pos + 8 + (serializeRecord r).length) (stepIdx idx r pos)
      (fun q hq => hgood q (List.mem_cons_of_mem _ hq)) hnext
    rw [length_encodeEntries_cons]
    simp only [foldRecs]
    rw [hlenAt] at hstep
    omega

theorem foldRecs_append :
    ∀ (l1 l2 : List Record) (idx : Index) (pos : Nat),
      foldRecs idx (l1 ++ l2) pos
        = foldRecs (foldRecs idx l1 pos) l2 (pos + (encodeEntries l1).length) := by
  intro l1
  induction l1 with
  | nil =>
    intro l2 idx pos
    simp [foldRecs, encodeEntries, rawConcat]
  | cons r l1 ih =>
    intro l2 idx pos
    have hp : pos + (encodeEntries (r :: l1)).length
        = (pos + 8 + (serializeRecord r).length) + (encodeEntries l1).length := by
      rw [length_encodeEntries_cons]
      omega
    simp only [List.cons_append, foldRecs]
    show foldRecs (stepIdx idx r pos) (l1 ++ l2) (pos + 8 + (serializeRecord r).length) = _
    rw [ih, hp]

theorem lookup_foldRecs_isSome :
    ∀ (rs : List Record) (idx : Index) (pos : Nat) (k : List Nat),
      (∀ r ∈ rs, r.val ≠ []) →
      ((∃ o, idxLookup idx k = some o) ∨ ∃ r ∈ rs, r.key = k) →
      ∃ o, idxLookup (foldRecs idx rs pos) k = some o := by
  intro rs
  induction rs with
  | nil =>
    intro idx pos k _ h
    rcases h with h | ⟨r, hr, _⟩
    · exact h
    · cases hr
  | cons r rs ih =>
    intro idx pos k hlive h
    have hrv := hlive r (List.mem_cons_self _ _)
    simp only [foldRecs]
    rw [show stepIdx idx r pos = idxInsert idx r.key pos by rw [stepIdx, if_neg hrv]]
    apply ih _ _ _ (fun q hq => hlive q (List.mem_cons_of_mem _ hq))
    rcases h with ⟨o, ho⟩ | ⟨r', hr', hk⟩
    · by_cases hrk : r.key = k
      · exact Or.inl ⟨pos, by rw [← hrk]; exact idxLookup_insert_self _ _ _⟩
      · refine Or.inl ⟨o, ?_⟩
        rw [idxLookup_insert_ne _ _ (fun he => hrk he.symm)]
        exact ho
    · rcases List.mem_cons.mp hr' with he | he
      · rw [he] at hk
        exact Or.inl ⟨pos, by rw [← hk]; exact idxLookup_insert_self _ _ _⟩
      · exact Or.inr ⟨r', he, hk⟩

theorem idxSize_insert_present {F : List Nat} {idx : Index} {k : List Nat} {o : Nat}
    (h : idxLookup idx k = some o) (pos : Nat) :
    idxSize F (idxInsert idx k pos) + 8 ≤ idxSize F idx + (8 + entryLenAt F pos) := by
  rw [idxSize_insert]
  have h1 := idxSize_remove_lookup F idx k o h
  omega

theorem idxSize_foldRecs_strict :
    ∀ (rs : List Record) (F frag : List Nat) (pos : Nat) (idx : Index),
      (∀ r ∈ rs, GoodRec r) → F.drop pos = encodeEntries rs ++ frag →
      DeadExists rs →
      idxSize F (foldRecs idx rs pos) + 8 ≤ idxSize F idx + (encodeEntries rs).length := by
  intro rs F frag pos idx hgood hdrop hdead
  by_cases htomb : ∃ t ∈ rs, t.val = []
  · obtain ⟨t, ht, htv⟩ := htomb
    obtain ⟨l1, l2, rfl⟩ := List.append_of_mem ht
    have hgood1 : ∀ r ∈ l1, GoodRec r :=
      fun q hq => hgood q (List.mem_append_left _ hq)
    have hgood2 : ∀ r ∈ l2, GoodRec r :=
      fun q hq => hgood q (List.mem_append_right _ (List.mem_cons_of_mem _ hq))
    have hdrop1 : F.drop pos = encodeEntries l1 ++ (encodeEntries (t :: l2) ++ frag) := by
      rw [hdrop, encodeEntries_append, List.append_assoc]
    have hdropT : F.drop (pos + (encodeEntries l1).length)
        = encodeEntries (t :: l2) ++ frag := drop_of_parse hdrop1
    have hdropL2 : F.drop (pos + (encodeEntries l1).length + 8
        + (serializeRecord t).length) = encodeEntries l2 ++ frag :=
      parse_head_next hdropT
    have hfold : foldRecs idx (l1 ++ t :: l2) pos
        = foldRecs (stepIdx (foldRecs idx l1 pos) t (pos + (encodeEntries l1).length))
            l2 (pos + (encodeEntries l1).length + 8 + (serializeRecord t).length) := by
      rw [foldRecs_append]
      rfl
    have hstep : stepIdx (foldRecs idx l1 pos) t (pos + (encodeEntries l1).length)
        = idxRemove (foldRecs idx l1 pos) t.key := by
      rw [stepIdx, if_pos htv]
    have hle2 := idxSize_foldRecs_le l2 F frag _
      (idxRemove (foldRecs idx l1 pos) t.key) hgood2 hdropL2
    have hrem := idxSize_remove_le F (foldRecs idx l1 pos) t.key
    have hle1 := idxSize_foldRecs_le l1 F (encodeEntries (t :: l2) ++ frag) pos idx
      hgood1 hdrop1
    have hlenrs : (encodeEntries (l1 ++ t :: l2)).length
        = (encodeEntries l1).length + (8 + (serializeRecord t).length
          + (encodeEntries l2).length) := by
      rw [encodeEntries_append, List.length_append, length_encodeEntries_cons]
    rw [hfold, hstep]
    omega
  · push_neg at htomb
    obtain ⟨l1, r, l2, hsplit, hcase⟩ := hdead
    rcases hcase with hrv | ⟨r', hr', hk⟩
    · exact absurd hrv (htomb r
        (by rw [hsplit]; exact List.mem_append_right _ (List.mem_cons_self _ _)))
    · obtain ⟨l2a, l2b, hl2⟩ := List.append_of_mem hr'
      have hsplit2 : rs = (l1 ++ r :: l2a) ++ r' :: l2b := by
        rw [hsplit, hl2]
        simp [List.append_assoc]
      rw [hsplit2] at hdrop hgood htomb ⊢
      have hgoodL : ∀ q ∈ l1 ++ r :: l2a, GoodRec q :=
        fun q hq => hgood q (List.mem_append_left _ hq)
      have hgood2b : ∀ q ∈ l2b, GoodRec q :=
        fun q hq => hgood q (List.mem_append_right _ (List.mem_cons_of_mem _ hq))
      have hliveL : ∀ q ∈ l1 ++ r :: l2a, q.val ≠ [] :=
        fun q hq => htomb q (List.mem_append_left _ hq)
      have hliver' : r'.val ≠ [] :=
        htomb r' (List.mem_append_right _ (List.mem_cons_self _ _))
      have hgoodr' : GoodRec r' :=
        hgood r' (List.mem_append_right _ (List.mem_cons_self _ _))
      have hdrop1 : F.drop pos = encodeEntries (l1 ++ r :: l2a)
          ++ (encodeEntries (r' :: l2b) ++ frag) := by
        rw [hdrop, encodeEntries_append, List.append_assoc]
      have hdropT : F.drop (pos + (encodeEntries (l1 ++ r :: l2a)).length)
          = encodeEntries (r' :: l2b) ++ frag := drop_of_parse hdrop1
      have hdropL2b : F.drop (pos + (encodeEntries (l1 ++ r :: l2a)).length + 8
          + (serializeRecord r').length) = encodeEntries l2b ++ frag :=
        parse_head_next hdropT
      have hlook : ∃ o, idxLookup (foldRecs idx (l1 ++ r :: l2a) pos) r'.key
          = some o := by
        refine lookup_foldRecs_isSome _ idx pos r'.key hliveL (Or.inr ⟨r, ?_, hk.symm⟩)
        exact List.mem_append_right _ (List.mem_cons_self _ _)
      obtain ⟨o, ho⟩ := hlook
      have hfold : foldRecs idx ((l1 ++ r :: l2a) ++ r' :: l2b) pos
          = foldRecs (stepIdx (foldRecs idx (l1 ++ r :: l2a) pos) r'
              (pos + (encodeEntries (l1 ++ r :: l2a)).length))
              l2b (pos + (encodeEntries (l1 ++ r :: l2a)).length + 8
                + (serializeRecord r').length) := by
        rw [foldRecs_append]
        rfl
      have hstep : stepIdx (foldRecs idx (l1 ++ r :: l2a) pos) r'
          (pos + (encodeEntries (l1 ++ r :: l2a)).length)
          = idxInsert (foldRecs idx (l1 ++ r :: l2a) pos) r'.key
              (pos + (encodeEntries (l1 ++ r :: l2a)).length) := by
        rw [stepIdx, if_neg hliver']
      have hlenAt1 : entryLenAt F (pos + (encodeEntries (l1 ++ r :: l2a)).length)
          = (serializeRecord r').length := parse_head_lenAt hgoodr' hdropT
      have hstrict := @idxSize_insert_present F _ _ _ ho
        (pos + (encodeEntries (l1 ++ r :: l2a)).length)
      rw [hlenAt1] at hstrict
      have hle2b := idxSize_foldRecs_le l2b F frag _
        (idxInsert (foldRecs idx (l1 ++ r :: l2a) pos) r'.key
          (pos + (encodeEntries (l1 ++ r :: l2a)).length)) hgood2b hdropL2b
      have hleL := idxSize_foldRecs_le (l1 ++ r :: l2a) F
        (encodeEntries (r' :: l2b) ++ frag) pos idx hgoodL hdrop1
      have hlenrs : (encodeEntries ((l1 ++ r :: l2a) ++ r' :: l2b)).length
          = (encodeEntries (l1 ++ r :: l2a)).length
            + (8 + (serializeRecord r').length + (encodeEntries l2b).length) := by
        rw [encodeEntries_append, List.length_append, length_encodeEntries_cons]
      rw [hfold, hstep]
      omega

theorem keysSize_congr (F : List Nat) :
    ∀ (ks : List (List Nat)) (idx idx' : Index),
      (∀ k ∈ ks, idxLookup idx k = idxLookup idx' k) →
      keysSize F idx ks = keysSize F idx' ks := by
  intro ks
  induction ks with
  | nil => intro _ _ _; rfl
  | cons k ks ih =>
    intro idx idx' h
    simp only [keysSize]
    rw [h k (List.mem_cons_self _ _),
      ih idx idx' (fun q hq => h q (List.mem_cons_of_mem _ hq))]

theorem keysSize_eq_idxSize (F : List Nat) :
    ∀ (idx : Index), (idx.map Prod.fst).Nodup →
      keysSize F idx (idx.map Prod.fst) = idxSize F idx := by
  intro idx
  induction idx with
  | nil => intro _; rfl
  | cons p rest ih =>
    obtain ⟨pk, po⟩ := p
    intro hnd
    simp only [List.map_cons, List.nodup_cons] at hnd
    simp only [List.map_cons, keysSize, idxSize]
    rw [show idxLookup ((pk, po) :: rest) pk = some po by simp [idxLookup]]
    dsimp only
    have hcong : keysSize F ((pk, po) :: rest) (rest.map Prod.fst)
        = keysSize F rest (rest.map Prod.fst) := by
      apply keysSize_congr
      intro k hk
      have hne : ¬pk = k := fun he => hnd.1 (he ▸ hk)
      simp [idxLookup, hne]
    rw [hcong, ih hnd.2]

/-- C8: Compaction shrinks the file — for an engine state opened from a log
written as a sequence of records, after `close()` succeeds the new file is
no longer than the old one, and strictly smaller whenever the old log held
at least one dead record (a tombstone, or an entry with a later entry for
the same key, i.e. overwritten or tombstoned). -/
theorem close_shrinks_file (rs : List Record) (db db' : DB)
    (hgood : ∀ r ∈ rs, GoodRec r)
    (hopen : openDB (encodeEntries rs) = .ok db)
    (hclose : close db = .ok db') :
    db'.file.length ≤ db.file.length ∧
      (DeadExists rs → db'.file.length < db.file.length) := by
  have hdb := openDB_entries hgood
  rw [hopen] at hdb
  injection hdb with hdb
  have hwf := wf_open hopen
  obtain ⟨dbc, hc, _, _, _, _, hsize, _⟩ := close_spec hwf
  rw [hclose] at hc
  injection hc with hceq
  subst hceq
  have hfile : db.file = encodeEntries rs := by rw [hdb]
  have hindex : db.index = foldRecs [] rs 0 := by
    rw [hdb]
    exact foldRaw_recRaw rs [] 0 hgood
  have hparse : db.file.drop 0 = encodeEntries rs ++ [] := by
    rw [List.drop_zero, hfile, List.append_nil]
  have hsz2 : db'.file.length = idxSize db.file db.index := by
    rw [hsize, keysSize_eq_idxSize db.file db.index hwf.1]
  have hlen : db.file.length = (encodeEntries rs).length := by rw [hfile]
  constructor
  · have hb := idxSize_foldRecs_le rs db.file [] 0 [] hgood hparse
    rw [hsz2, hindex]
    simp only [idxSize] at hb
    omega
  · intro hdead
    have hb := idxSize_foldRecs_strict rs db.file [] 0 [] hgood hparse hdead
    rw [hsz2, hindex]
    simp only [idxSize] at hb
    omega

theorem close_shrinks_file_witness :
    (∀ r ∈ [Record.mk [1] [2], Record.mk [1] [3]], GoodRec r) ∧
      openDB (encodeEntries [Record.mk [1] [2], Record.mk [1] [3]])
        = .ok ⟨encodeEntries [Record.mk [1] [2], Record.mk [1] [3]], 0, [([1], 26)]⟩ ∧
      close ⟨encodeEntries [Record.mk [1] [2], Record.mk [1] [3]], 0, [([1], 26)]⟩
        = .ok ⟨u64le 18 ++ serializeRecord ⟨[1], [3]⟩, 0, [([1], 0)]⟩ ∧
      (u64le 18 ++ serializeRecord (Record.mk [1] [3])).length
        < (encodeEntries [Record.mk [1] [2], Record.mk [1] [3]]).length :=
  ⟨by decide, by decide, by decide,
    (close_shrinks_file [Record.mk [1] [2], Record.mk [1] [3]]
        ⟨encodeEntries [Record.mk [1] [2], Record.mk [1] [3]], 0, [([1], 26)]⟩
        ⟨u64le 18 ++ serializeRecord ⟨[1], [3]⟩, 0, [([1], 0)]⟩
        (by decide) (by decide) (by decide)).2
      ⟨[], Record.mk [1] [2], [Record.mk [1] [3]], rfl,
        Or.inr ⟨Record.mk [1] [3], List.mem_singleton.mpr rfl, rfl⟩⟩⟩
